import Mathlib

/-!
# Verification of the law_search ingestion and retrieval pipeline

This file gives a shallow embedding, in Lean 4, of the algorithmic core of the
`law_search` repository (XML statute extraction, text normalization, article
splitting, embedding validation, batch storage, hybrid search-result fusion,
and the pipeline orchestrator), together with theorems settling the claims
made by the repository's natural-language specification.

Conventions of the embedding:
* Python floats are modelled as rationals (`ℚ`); the concrete scores appearing
  in the claims (10, 5, 0.9, 0.1, 0.4) are exactly representable, so rational
  arithmetic agrees with IEEE arithmetic on every computation the claims touch.
* Python dicts are modelled as association lists with Python's insertion-order
  semantics: updating an existing key keeps its position, inserting a new key
  appends it.
* Python `sorted(..., reverse=True)` (a stable descending sort) is modelled by
  a stable descending insertion sort.
* Python exceptions are modelled with `Except String`; operations that can
  fail in ways a claim cares about (e.g. float division, per-item database
  inserts, pipeline stages backed by I/O) return or consume `Except` values.
* Strings are processed as their underlying `List Char`; Python's `len` on a
  `str` counts code points, which agrees with `List Char` length.
-/

namespace LawSearch

/-! ## Hybrid result fusion (`DatabaseManager._combine_search_results`)

A search result is modelled as its storage key paired with its raw score;
the other payload fields of the result dict are irrelevant to scoring and
ordering and are elided.
-/

/-- One channel's search result: storage key and raw score. -/
abbrev SearchResult := String × ℚ

/-- Python dict update: `d[k] = v`. An existing key keeps its position in the
iteration order; a new key is appended. -/
def dictUpdate (d : List (String × ℚ)) (k : String) (v : ℚ) : List (String × ℚ) :=
  if d.any (fun p => p.1 = k) then d.map (fun p => if p.1 = k then (p.1, v) else p)
  else d ++ [(k, v)]

/-- Python dict comprehension over results: a dict built left to right. -/
def dictOf (results : List SearchResult) : List (String × ℚ) :=
  results.foldl (fun d r => dictUpdate d r.1 r.2) []

/-- Python `d.get(k)` on the association-list dict model. -/
def lookupD (d : List (String × ℚ)) (k : String) : Option ℚ :=
  (d.find? (fun p => p.1 = k)).map (fun p => p.2)

/-- Python `max` over a (nonempty) list of values; `0` on the empty list,
which the code never queries. -/
def maxV : List ℚ → ℚ
  | [] => 0
  | x :: xs => xs.foldl max x

/-- Python `min` over a (nonempty) list of values; `0` on the empty list,
which the code never queries. -/
def minV : List ℚ → ℚ
  | [] => 0
  | x :: xs => xs.foldl min x

/-- Python float division, which raises `ZeroDivisionError` on a zero
denominator. -/
def divE (a b : ℚ) : Except String ℚ :=
  if b = 0 then .error "ZeroDivisionError" else .ok (a / b)

/-- The score-normalization block of `_combine_search_results` for one
channel: if the channel returned at least one result, compute the max and min
raw score, and when `max > min` rewrite every score to
`(score - min) / (max - min)`; otherwise leave the dict untouched. -/
def normalizeScores (results : List SearchResult) (scores : List (String × ℚ)) :
    Except String (List (String × ℚ)) :=
  if results = [] then .ok scores
  else
    let mx := maxV (scores.map (fun p => p.2))
    let mn := minV (scores.map (fun p => p.2))
    if mn < mx then
      scores.mapM (fun p => do
        let q ← divE (p.2 - mn) (mx - mn)
        pure (p.1, q))
    else .ok scores

/-- The fused score of candidate `k`:
`fulltext_scores.get(key, 0) * weights['fulltext'] + vector_scores.get(key, 0) * weights['vector']`. -/
def combinedScore (nf nv : List (String × ℚ)) (wf wv : ℚ) (k : String) : ℚ :=
  ((lookupD nf k).getD 0) * wf + ((lookupD nv k).getD 0) * wv

/-- Insert a key into a list already sorted descending by `scoreOf`, after
every element of score ≥ its own (the placement a stable descending sort
gives an element arriving in original order). -/
def insertDesc (scoreOf : String → ℚ) (k : String) : List String → List String
  | [] => [k]
  | k' :: ks => if scoreOf k' < scoreOf k then k :: k' :: ks else k' :: insertDesc scoreOf k ks

/-- Python `sorted(xs, key=scoreOf, reverse=True)`: the stable descending
sort, realised as an insertion sort that processes the list in original
order. -/
def sortDesc (scoreOf : String → ℚ) (l : List String) : List String :=
  l.foldl (fun acc k => insertDesc scoreOf k acc) []

/-- Model of `DatabaseManager._combine_search_results`: min-max normalize each channel
independently, compute weighted combined scores over the union of keys, order
the union of result records (keyed by first occurrence in
`fulltext_results + vector_results`) by descending combined score with a
stable sort, and annotate each with its combined score. The output keeps, for
each candidate, its key and combined score. -/
def combineSearchResults (fulltext_results vector_results : List SearchResult)
    (wf wv : ℚ) : Except String (List (String × ℚ)) := do
  let fulltext_scores := dictOf fulltext_results
  let vector_scores := dictOf vector_results
  let nf ← normalizeScores fulltext_results fulltext_scores
  let nv ← normalizeScores vector_results vector_scores
  let cs := combinedScore nf nv wf wv
  let all_keys := (dictOf (fulltext_results ++ vector_results)).map (fun p => p.1)
  let sorted := sortDesc cs all_keys
  pure (sorted.map (fun k => (k, cs k)))

/-! ### Basic computation lemmas for the fusion model -/

/-! ## Embedded fragments and their validation
(`EmbeddingGenerator.validate_embeddings`)

`EmbeddingResult` mirrors the Python dataclass; the free-form `metadata`
mapping is elided (no claim inspects it), and float vectors/times are
rationals. -/

structure EmbeddingResult where
  law_id : String
  article_number : String
  content : String
  embedding : List ℚ
  model_name : String
  generation_time : ℚ

/-- The dict returned by `validate_embeddings`. Error and warning messages
keep the fixed Japanese text of the source; the interpolated index lists and
dimension sets are elided (claims only test presence of messages). -/
structure ValidationResult where
  valid : Bool
  errors : List String
  warnings : List String
  total_count : Nat

/-- Model of `EmbeddingGenerator.validate_embeddings`: empty input is an early-return
error; inconsistent vector dimensions and empty vectors are errors; short
content (< 10 chars) and long generation time (> 10 s) are warnings. -/
def validate_embeddings (embeddings : List EmbeddingResult) : ValidationResult :=
  if embeddings.isEmpty then
    { valid := false, errors := ["埋め込みが空です"], warnings := [],
      total_count := embeddings.length }
  else
    let dimensions := embeddings.map (fun e => e.embedding.length)
    let unique_dimensions := dimensions.dedup
    let dim_errors : List String :=
      if 1 < unique_dimensions.length then ["埋め込み次元数が一貫していません"] else []
    let empty_embeddings :=
      (embeddings.enum.filter (fun p => p.2.embedding.isEmpty)).map (fun p => p.1)
    let empty_errors : List String :=
      if ¬ empty_embeddings.isEmpty then ["空の埋め込みがあります"] else []
    let short_texts :=
      (embeddings.enum.filter (fun p => p.2.content.length < 10)).map (fun p => p.1)
    let short_warnings : List String :=
      if ¬ short_texts.isEmpty then ["短いテキストがあります"] else []
    let long_times :=
      (embeddings.enum.filter (fun p => (10 : ℚ) < p.2.generation_time)).map (fun p => p.1)
    let long_warnings : List String :=
      if ¬ long_times.isEmpty then ["生成時間が長い埋め込みがあります"] else []
    { valid := !(decide (1 < unique_dimensions.length) || !empty_embeddings.isEmpty),
      errors := dim_errors ++ empty_errors,
      warnings := short_warnings ++ long_warnings,
      total_count := embeddings.length }

/-! ## Batch document storage (`DatabaseManager.insert_documents_batch`)

The source prepares one document dict per embedding result and calls the
driver's `insert_many` once, inside a single `try`; the list comprehension
`[result['_key'] for result in results]` then extracts the assigned keys.
The per-item outcomes of `insert_many` are modelled as a list of
`Except String String` (an assigned key, or a per-item error object, which
the key extraction cannot subscript and which therefore throws into the
surrounding `except`, returning `[]`). -/

/-- The key-extraction comprehension: succeeds only if every outcome is a
key. -/
def extractBatchKeys (results : List (Except String String)) : Option (List String) :=
  results.mapM (fun r => match r with | .ok k => some k | .error _ => none)

/-- Model of `DatabaseManager.insert_documents_batch`: empty input short-circuits to
`[]`; otherwise the keys of the batch-insert outcomes are extracted, and any
failure inside the `try` block makes the function return `[]`. -/
def insert_documents_batch (embedding_results : List EmbeddingResult)
    (insert_outcomes : List (Except String String)) : List String :=
  if embedding_results.isEmpty then []
  else
    match extractBatchKeys insert_outcomes with
    | some keys => keys
    | none => []

/-- A sample embedded fragment used for concrete inputs. -/
def sampleEmbedding : EmbeddingResult :=
  { law_id := "M32HO089", article_number := "第1条",
    content := "所得税の納税義務者に関する条文テキスト",
    embedding := [1, 0], model_name := "intfloat/multilingual-e5-large",
    generation_time := 1 }

/-! ## Parser data model (`parser.Article`, `parser.LawDocument`)

The `metadata` dicts (provenance tags and wall-clock timestamps) are elided:
no claim inspects them. The Python field `section` is spelled `sect` because
`section` is a Lean keyword. -/

structure Article where
  law_id : String
  article_number : String
  content : String
  chapter : Option String := none
  sect : Option String := none
  subsection : Option String := none
  paragraph : Option String := none
  effective_date : Option String := none

structure LawDocument where
  law_id : String
  law_name : String
  law_name_kana : Option String := none
  law_number : Option String := none
  promulgation_date : Option String := none
  effective_date : Option String := none
  category : Option String := none
  description : Option String := none
  articles : List Article := []

/-! ## Pipeline orchestrator (`DataProcessor`)

The collaborator calls (file lookup, XML parse, preprocessing, embedding,
storage) are I/O; their outcomes are passed as explicit `Except`/`Option`
parameters, and the orchestrator's own control flow — which is what the
claims are about — is embedded faithfully: `process_single_law` wraps every
stage in one `try` whose handler returns a failure dict, while
`process_all_tax_laws` wraps its body in a `try` whose handler re-raises. -/

/-- Model of `collector.DownloadResult` (fields not used by the claims elided). -/
structure DownloadResult where
  law_id : String
  success : Bool
  file_path : Option String := none

/-- The structured outcome dict built by `DataProcessor.process_single_law`
(timing and nested info fields elided). -/
structure ProcessOutcome where
  law_id : String
  success : Bool
  error : Option String
  articles_count : Nat
  embeddings_count : Nat
  saved_documents : Nat

/-- The body of `process_single_law`'s `try` block: resolve the source file,
parse, preprocess, embed, store; the first failing stage throws. -/
def process_single_law_pipeline (law_id : String) (xml_file_path : Option String)
    (file_found : Bool) (parse_result : Option LawDocument)
    (preprocess_outcome : Except String LawDocument)
    (embed_outcome : Except String (List EmbeddingResult))
    (store_outcome : Except String (List String)) :
    Except String (LawDocument × List EmbeddingResult × List String) := do
  match xml_file_path with
  | none =>
      if ¬ file_found then throw ("XMLファイルが見つかりません: " ++ law_id) else pure ()
  | some _ => pure ()
  let _law_document ← match parse_result with
    | none => throw ("XMLパースに失敗: " ++ law_id)
    | some d => pure d
  let processed_document ← preprocess_outcome
  let embeddings ← embed_outcome
  let saved_keys ← store_outcome
  pure (processed_document, embeddings, saved_keys)

/-- Model of `DataProcessor.process_single_law`: the `try`/`except` boundary. Any
stage failure becomes a failure dict with `success = False` and the error
message; a full run builds the success dict. The function is total: no
exception escapes. -/
def process_single_law (law_id : String) (xml_file_path : Option String)
    (file_found : Bool) (parse_result : Option LawDocument)
    (preprocess_outcome : Except String LawDocument)
    (embed_outcome : Except String (List EmbeddingResult))
    (store_outcome : Except String (List String)) : ProcessOutcome :=
  match process_single_law_pipeline law_id xml_file_path file_found parse_result
      preprocess_outcome embed_outcome store_outcome with
  | .ok (pd, embs, keys) =>
      { law_id := law_id, success := true, error := none,
        articles_count := pd.articles.length, embeddings_count := embs.length,
        saved_documents := keys.length }
  | .error e =>
      { law_id := law_id, success := false, error := some e,
        articles_count := 0, embeddings_count := 0, saved_documents := 0 }

/-- The summary dict aggregated by `process_all_tax_laws` (timing and raw
result lists elided). -/
structure BulkSummary where
  total_laws : Nat
  successful_downloads : Nat
  successful_processing : Nat
  total_articles : Nat
  total_embeddings : Nat

/-- Model of `DataProcessor.process_all_tax_laws`: bulk download, then
`process_single_law` per successful download (failed downloads are skipped).
Its `except` handler logs and then re-raises, so an exception from the
download stage propagates to the caller; `Except.error` models that
propagation. -/
def process_all_tax_laws (download_outcome : Except String (List DownloadResult))
    (single : String → Option String → ProcessOutcome) : Except String BulkSummary :=
  match download_outcome with
  | .error e => .error e
  | .ok download_results =>
      let processing_results := (download_results.filter (fun d => d.success)).map
        (fun d => single d.law_id d.file_path)
      .ok { total_laws := download_results.length,
            successful_downloads := (download_results.filter (fun d => d.success)).length,
            successful_processing := processing_results.length,
            total_articles := (processing_results.map (fun r => r.articles_count)).sum,
            total_embeddings := (processing_results.map (fun r => r.embeddings_count)).sum }

/-! ## Text normalization (`DataPreprocessor._clean_article_content`)

Python regex `\\s` and `str.strip` recognize the Unicode whitespace set,
modelled concretely by `pyIsSpace`. Python regex `\\w` (Unicode word
characters) depends on the full Unicode property table, which is abstracted
as an arbitrary predicate `wp`; every theorem below holds for every choice
of `wp`, hence in particular for Python's table. `re.sub(r'\\s+', ' ', ·)`
is `squeezeSpaces`, `str.strip()` is `stripChars`, and the character
allow-list `[^\\w\\s\u3040-\u309F\u30A0-\u30FF\u4E00-\u9FAF\u3000-\u303F]`
removal is `List.filter (allowedChar wp)`. -/

/-- Python's whitespace set (`str.isspace`, the characters matched by regex
`\\s` on `str` patterns). -/
def pyIsSpace (c : Char) : Bool :=
  let n := c.toNat
  n = 32 || n = 9 || n = 10 || n = 11 || n = 12 || n = 13 ||
  (28 ≤ n && n ≤ 31) || n = 133 || n = 160 || n = 5760 ||
  (8192 ≤ n && n ≤ 8202) || n = 8232 || n = 8233 || n = 8239 || n = 8287 || n = 12288

/-- Model of `re.sub(r'\\s+', ' ', text)`: every maximal whitespace run becomes one
ASCII space. The flag records whether the previous character was part of a
whitespace run. -/
def squeezeAux : Bool → List Char → List Char
  | _, [] => []
  | prevSp, c :: cs =>
    if pyIsSpace c then
      if prevSp then squeezeAux true cs else ' ' :: squeezeAux true cs
    else c :: squeezeAux false cs

def squeezeSpaces (l : List Char) : List Char := squeezeAux false l

def trimLeftChars (l : List Char) : List Char := l.dropWhile pyIsSpace

def trimRightChars (l : List Char) : List Char := (l.reverse.dropWhile pyIsSpace).reverse

/-- Python `str.strip()`. -/
def stripChars (l : List Char) : List Char := trimRightChars (trimLeftChars l)

/-- The character allow-list of `_clean_article_content`: word characters
(`wp`), whitespace, hiragana, katakana, CJK ideographs, and the Japanese
punctuation block. -/
def allowedChar (wp : Char → Bool) (c : Char) : Bool :=
  wp c || pyIsSpace c ||
  (0x3040 ≤ c.toNat && c.toNat ≤ 0x309F) ||
  (0x30A0 ≤ c.toNat && c.toNat ≤ 0x30FF) ||
  (0x4E00 ≤ c.toNat && c.toNat ≤ 0x9FAF) ||
  (0x3000 ≤ c.toNat && c.toNat ≤ 0x303F)

/-- Model of `content.replace('\u3000', ' ')` applied characterwise. -/
def replaceFullWidthSpace (c : Char) : Char :=
  if c.toNat = 0x3000 then ' ' else c

/-- Model of `DataPreprocessor._clean_article_content` on the character list:
squeeze, strip, filter the allow-list, replace ideographic spaces, squeeze,
strip. -/
def cleanChars (wp : Char → Bool) (l : List Char) : List Char :=
  stripChars (squeezeSpaces
    (((stripChars (squeezeSpaces l)).filter (allowedChar wp)).map replaceFullWidthSpace))

/-- Model of `DataPreprocessor._clean_article_content` (the empty-content guard, then
the cleaning chain). -/
def clean_article_content (wp : Char → Bool) (content : String) : String :=
  if content = "" then "" else ⟨cleanChars wp content.data⟩

/-- No two adjacent characters of the list are both whitespace. -/
def NoTwoSpaces (l : List Char) : Prop :=
  l.Chain' (fun a b => ¬(pyIsSpace a = true ∧ pyIsSpace b = true))

/-- Neither end of the list is whitespace. -/
def NoEdgeSpace (l : List Char) : Prop :=
  (∀ c, l.head? = some c → pyIsSpace c = false) ∧
  (∀ c, l.getLast? = some c → pyIsSpace c = false)

/-! ### Properties of `squeezeSpaces` -/

/-! ### Properties of `stripChars` -/

/-! ### The output of cleaning is in normal form, and cleaning fixes normal
forms -/

/-! ## Long-article splitting (`DataPreprocessor.split_long_article`)

`re.split(r'[。！？]', content)` is `splitSentences` (it returns one piece
per delimiter plus a final piece, exactly like `re.split`); the greedy
accumulation loop is `splitLoop`; `current_content + sentence + "。"` is
`current ++ s ++ ['。']`. -/

/-- The sentence-ending delimiters of `re.split(r'[。！？]', ...)`. -/
def isSentenceDelim (c : Char) : Bool :=
  c = '。' || c = '！' || c = '？'

/-- Model of `re.split(r'[。！？]', content)`: always one more piece than there are
delimiters; pieces contain no delimiter. -/
def splitSentences : List Char → List (List Char)
  | [] => [[]]
  | c :: cs =>
    if isSentenceDelim c then [] :: splitSentences cs
    else
      match splitSentences cs with
      | s :: rest => (c :: s) :: rest
      | [] => [[c]]

/-- One chunk article: the fragment number gets the `-idx` suffix, the
accumulated content is stripped (split-provenance metadata elided). -/
def mkSplitArticle (article : Article) (idx : Nat) (content : List Char) : Article :=
  { article with
    article_number := article.article_number ++ "-" ++ toString idx,
    content := ⟨stripChars content⟩ }

/-- The sentence loop of `split_long_article`: blank sentences are skipped;
a sentence that would push the current chunk over the limit flushes the
chunk (unless the chunk is empty, in which case the oversized sentence is
kept whole); the final chunk is flushed if non-empty. -/
def splitLoop (article : Article) (max_length : Nat) :
    List (List Char) → List Char → Nat → List Article
  | [], current, idx =>
      if current = [] then [] else [mkSplitArticle article idx current]
  | s :: rest, current, idx =>
      if stripChars s = [] then splitLoop article max_length rest current idx
      else
        if max_length < (current ++ s ++ ['。']).length ∧ current ≠ [] then
          mkSplitArticle article idx current ::
            splitLoop article max_length rest (s ++ ['。']) (idx + 1)
        else splitLoop article max_length rest (current ++ s ++ ['。']) idx

/-- Model of `DataPreprocessor.split_long_article`: a fragment within the limit is
returned unchanged as a one-element list; otherwise the content is split on
sentence delimiters and greedily grouped. -/
def split_long_article (article : Article) (max_length : Nat) : List Article :=
  if article.content.length ≤ max_length then [article]
  else splitLoop article max_length (splitSentences article.content.data) [] 1

/-- The sentence content of a list of characters: split on delimiters, trim
each piece, drop blank pieces. Two texts with the same `recoverSentences`
carry the same sentences in the same order, up to surrounding whitespace. -/
def recoverSentences (l : List Char) : List (List Char) :=
  ((splitSentences l).map stripChars).filter (fun s => s ≠ [])

/-- The concatenation `s₁ ++ "。" ++ s₂ ++ "。" ++ ⋯` a chunk's content is
accumulated as. -/
def sentenceForm (ts : List (List Char)) : List Char :=
  (ts.map (fun t => t ++ ['。'])).flatten

/-! ### Properties of `splitSentences` and `sentenceForm` -/

/-- The concatenation of the contents of a list of chunk articles. -/
def contentsOf (chunks : List Article) : List Char :=
  (chunks.map (fun c => c.content.data)).flatten

/-- A concrete fragment whose second sentence begins with a space: content
`"あい。 うえ。"` (7 characters). -/
def sampleSplitArticle : Article :=
  { law_id := "L1", article_number := "第1条", content := "あい。 うえ。" }

/-! ## XML structural extraction (`XMLParser`)

An element tree stands for the parsed XML document: tag (namespace prefixes
elided — every lookup in the source uses the single `law:` namespace),
attributes, direct text, and children in document order. `root.findall
('.//law:T')` searches all descendants of the root in document order;
`elem.find('law:T')` searches direct children only. The forest is a mutual
inductive so that the descendant traversal is structurally recursive. -/

mutual
inductive XElem where
  | mk (tag : String) (attrs : List (String × String)) (text : Option String)
      (children : XForest)
inductive XForest where
  | nil
  | cons (e : XElem) (es : XForest)
end

def XElem.tag : XElem → String
  | .mk t _ _ _ => t

def XElem.attrs : XElem → List (String × String)
  | .mk _ a _ _ => a

def XElem.text : XElem → Option String
  | .mk _ _ x _ => x

def XElem.children : XElem → XForest
  | .mk _ _ _ ch => ch

def XForest.toList : XForest → List XElem
  | .nil => []
  | .cons e es => e :: XForest.toList es

mutual
/-- An element followed by all its descendants, in document order. -/
def descendantsSelf : XElem → List XElem
  | .mk t a x ch => .mk t a x ch :: descendantsForest ch

/-- All elements of a forest and their descendants, in document order. -/
def descendantsForest : XForest → List XElem
  | .nil => []
  | .cons e es => descendantsSelf e ++ descendantsForest es
end

/-- Model of `root.findall('.//law:tag', ...)`: all descendants with the tag, in
document order (the root itself is not a candidate). -/
def findAll (root : XElem) (tag : String) : List XElem :=
  (descendantsForest root.children).filter (fun e => e.tag = tag)

/-- Model of `root.find('.//law:tag', ...)`: first descendant with the tag. -/
def findDesc (root : XElem) (tag : String) : Option XElem :=
  (descendantsForest root.children).find? (fun e => e.tag = tag)

/-- Model of `elem.find('law:tag', ...)`: first direct child with the tag. -/
def findChild (e : XElem) (tag : String) : Option XElem :=
  e.children.toList.find? (fun c => c.tag = tag)

/-- Python truthiness of `elem.text`: present and non-empty. -/
def truthyText (e : XElem) : Option String :=
  match e.text with
  | some t => if t = "" then none else some t
  | none => none

/-- Model of `elem.attrib[name]` guarded by `name in elem.attrib`. -/
def lookupAttr (e : XElem) (name : String) : Option String :=
  (e.attrs.find? (fun p => p.1 = name)).map (fun p => p.2)

/-- Python `str.strip()` on a string. -/
def pyStripString (s : String) : String := ⟨stripChars s.data⟩

/-- Model of `XMLParser._clean_text`: collapse whitespace runs, strip, replace
ideographic spaces (no allow-list filtering here). -/
def clean_text (text : String) : String :=
  if text = "" then ""
  else ⟨(stripChars (squeezeSpaces text.data)).map replaceFullWidthSpace⟩

/-- Model of `XMLParser._extract_article_number`: the `ArticleNum` child's non-empty
text, stripped; else the `Num` attribute; else nothing. -/
def _extract_article_number (article_elem : XElem) : Option String :=
  match (findChild article_elem "ArticleNum").bind truthyText with
  | some t => some (pyStripString t)
  | none => lookupAttr article_elem "Num"

/-- Model of `XMLParser._extract_article_content`: the `ArticleCaption` child's text,
else an `Item` child's text, else the element's own direct text, each
cleaned; else nothing. -/
def _extract_article_content (article_elem : XElem) : Option String :=
  match (findChild article_elem "ArticleCaption").bind truthyText with
  | some t => some (clean_text t)
  | none =>
    match (findChild article_elem "Item").bind truthyText with
    | some t => some (clean_text t)
    | none =>
      match truthyText article_elem with
      | some t => some (clean_text t)
      | none => none

/-- Model of `XMLParser._extract_item_number`. -/
def _extract_item_number (item_elem : XElem) : Option String :=
  match (findChild item_elem "ItemNum").bind truthyText with
  | some t => some (pyStripString t)
  | none => lookupAttr item_elem "Num"

/-- Model of `XMLParser._extract_item_content`. -/
def _extract_item_content (item_elem : XElem) : Option String :=
  match (findChild item_elem "ItemCaption").bind truthyText with
  | some t => some (clean_text t)
  | none =>
    match truthyText item_elem with
    | some t => some (clean_text t)
    | none => none

/-- Model of `XMLParser._parse_article_element`: requires a truthy fragment number
and truthy content; structural hints are always unset (the known no-op). -/
def _parse_article_element (article_elem : XElem) (law_id : String) : Option Article :=
  match _extract_article_number article_elem with
  | none => none
  | some article_number =>
    if article_number = "" then none
    else
      match _extract_article_content article_elem with
      | none => none
      | some content =>
        if content = "" then none
        else some { law_id := law_id, article_number := article_number, content := content }

/-- Model of `XMLParser._parse_item_element`. -/
def _parse_item_element (item_elem : XElem) (law_id : String) : Option Article :=
  match _extract_item_number item_elem with
  | none => none
  | some item_number =>
    if item_number = "" then none
    else
      match _extract_item_content item_elem with
      | none => none
      | some content =>
        if content = "" then none
        else some { law_id := law_id, article_number := item_number, content := content }

/-- Model of `XMLParser._extract_articles`: parse every `Article` descendant; if no
article was accepted, fall back to the `Item` descendants. -/
def _extract_articles (root : XElem) (law_id : String) : List Article :=
  let articles := (findAll root "Article").filterMap
    (fun e => _parse_article_element e law_id)
  if articles.isEmpty then
    (findAll root "Item").filterMap (fun e => _parse_item_element e law_id)
  else articles

/-- Python's `sub in s` substring test. -/
def isPrefixChars : List Char → List Char → Bool
  | [], _ => true
  | _ :: _, [] => false
  | c :: cs, d :: ds => c = d && isPrefixChars cs ds

def strContains (s sub : String) : Bool :=
  s.data.tails.any (fun t => isPrefixChars sub.data t)

/-- The category chain of `_extract_law_info`: substring tests against the
law title in fixed priority order, first match wins, default その他. -/
def inferCategory (law_name : String) : String :=
  if strContains law_name "税" then "税法"
  else if strContains law_name "民法" then "民法"
  else if strContains law_name "刑法" then "刑法"
  else if strContains law_name "商法" then "商法"
  else if strContains law_name "労働" then "労働法"
  else "その他"

/-- The `law_name`/`category` entries of the dict built by
`_extract_law_info`. Every extraction in its `try` block uses the pattern
`elem = root.find('.//law:T'); if elem is not None: ... elem.text.strip()`:
when the element exists but carries no text, `.strip()` on `None` raises
`AttributeError` and the enclosing `except` returns the dict as built so
far — so any such element among `LawTitle`, `LawTitleKana`, `LawNum`,
`PromulgateDate`, `EffectiveDate` aborts the later assignments and in
particular leaves `category` unset. The kana/number/date *values* are
elided (no claim reads them); only their abort effect is modelled. -/
structure LawInfo where
  law_name : Option String
  category : Option String

/-- Whether the `elem.text.strip()` of the extraction for `tag` raises
`AttributeError`: the element is found but its text is missing. -/
def elemTextIsNone (root : XElem) (tag : String) : Bool :=
  match findDesc root tag with
  | some e => e.text.isNone
  | none => false

/-- Whether one of the four extractions that run between the title lookup
and the category inference raises, aborting category assignment. -/
def infoAborts (root : XElem) : Bool :=
  elemTextIsNone root "LawTitleKana" || elemTextIsNone root "LawNum" ||
  elemTextIsNone root "PromulgateDate" || elemTextIsNone root "EffectiveDate"

def _extract_law_info (root : XElem) : LawInfo :=
  match findDesc root "LawTitle" with
  | some e =>
    match e.text with
    | some t =>
      let nm := pyStripString t
      if infoAborts root then { law_name := some nm, category := none }
      else { law_name := some nm, category := some (inferCategory nm) }
    | none => { law_name := none, category := none }
  | none =>
    if infoAborts root then { law_name := none, category := none }
    else { law_name := none, category := some (inferCategory "") }

/-! ### Claims about extraction -/

/-- An `Article` element with neither an `ArticleNum` child nor a `Num`
attribute: dropped by parsing. -/
def sampleBareArticle : XElem := .mk "Article" [] (some "本文") .nil

/-- A well-formed `Item` element. -/
def sampleItem : XElem := .mk "Item" [("Num", "1")] (some "第一号の内容") .nil

/-- A document holding one unparseable `Article` and one `Item`. -/
def sampleFallbackRoot : XElem :=
  .mk "Law" [] none (.cons sampleBareArticle (.cons sampleItem .nil))

def sampleArticle1 : XElem :=
  .mk "Article" [] none
    (.cons (.mk "ArticleNum" [] (some "第1条") .nil)
      (.cons (.mk "ArticleCaption" [] (some "（納税義務者）") .nil) .nil))

def sampleArticle2 : XElem :=
  .mk "Article" [] none
    (.cons (.mk "ArticleNum" [] (some "第2条") .nil)
      (.cons (.mk "ArticleCaption" [] (some "（課税所得の範囲）") .nil) .nil))

def sampleTitleElem : XElem := .mk "LawTitle" [] (some "所得税法") .nil

/-- A document with a 税-containing title and an empty `LawTitleKana`
element (present, no text): the kana extraction's `.strip()` raises and the
enclosing handler returns the info dict before the category is assigned. -/
def sampleKanaCrashRoot : XElem :=
  .mk "Law" [] none
    (.cons (.mk "LawTitle" [] (some "所得税法") .nil)
      (.cons (.mk "LawTitleKana" [] none .nil) .nil))

/-- A statute document: title 所得税法 and two well-formed articles. -/
def sampleLawRoot : XElem :=
  .mk "Law" [] none
    (.cons (.mk "LawBody" [] none
      (.cons sampleTitleElem (.cons sampleArticle1 (.cons sampleArticle2 .nil)))) .nil)

/-! ## Lemmas and claim theorems -/

theorem exc_bind_ok {α β : Type} (a : α) (f : α → Except String β) :
    (Except.ok a : Except String α) >>= f = f a := rfl

theorem exc_pure {α : Type} (a : α) : (pure a : Except String α) = Except.ok a := rfl

/-- When the guard `max > min` holds, the per-key division never hits a zero
denominator, and the whole traversal succeeds with the min-max rescaled
values. -/
theorem mapM_div_ok (mn mx : ℚ) (h : mx - mn ≠ 0) (sc : List (String × ℚ)) :
    sc.mapM (fun p => do
        let q ← divE (p.2 - mn) (mx - mn)
        pure (p.1, q))
      = .ok (sc.map (fun p => (p.1, (p.2 - mn) / (mx - mn)))) := by
  induction sc with
  | nil => rfl
  | cons p ps ih =>
      rw [List.mapM_cons, ih]
      simp [divE, h, exc_bind_ok, exc_pure]

/-- Score normalization of a channel never fails. -/
theorem normalizeScores_ok (results : List SearchResult) (sc : List (String × ℚ)) :
    ∃ d, normalizeScores results sc = .ok d := by
  unfold normalizeScores
  by_cases hr : results = []
  · exact ⟨sc, by simp [hr]⟩
  · simp only [hr, if_false]
    by_cases hlt : minV (sc.map (fun p => p.2)) < maxV (sc.map (fun p => p.2))
    · simp only [hlt, if_true]
      have hne : maxV (sc.map (fun p => p.2)) - minV (sc.map (fun p => p.2)) ≠ 0 :=
        ne_of_gt (sub_pos.mpr hlt)
      exact ⟨_, mapM_div_ok _ _ hne sc⟩
    · exact ⟨sc, by simp [hlt]⟩

theorem foldl_max_eq (x : ℚ) (xs : List ℚ) (h : ∀ y ∈ xs, y = x) :
    xs.foldl max x = x := by
  induction xs with
  | nil => rfl
  | cons y ys ih =>
      have hy : y = x := h y (by simp)
      simp only [List.foldl_cons, hy, max_self]
      exact ih (fun z hz => h z (by simp [hz]))

theorem foldl_min_eq (x : ℚ) (xs : List ℚ) (h : ∀ y ∈ xs, y = x) :
    xs.foldl min x = x := by
  induction xs with
  | nil => rfl
  | cons y ys ih =>
      have hy : y = x := h y (by simp)
      simp only [List.foldl_cons, hy, min_self]
      exact ih (fun z hz => h z (by simp [hz]))

/-- If all values of a list are equal, its Python `max` and `min` agree. -/
theorem maxV_eq_minV (l : List ℚ) (h : ∀ x ∈ l, ∀ y ∈ l, x = y) :
    maxV l = minV l := by
  cases l with
  | nil => rfl
  | cons x xs =>
      have hx : ∀ y ∈ xs, y = x := fun y hy =>
        h y (by simp [hy]) x (by simp)
      simp [maxV, minV, foldl_max_eq x xs hx, foldl_min_eq x xs hx]

/-- Updating a key that is already present leaves the key sequence of the
dict unchanged; a fresh key is appended at the end. -/
theorem dictUpdate_keymap (d : List (String × ℚ)) (k : String) (v : ℚ) :
    (dictUpdate d k v).map (fun p => p.1) =
      if d.any (fun p => p.1 = k) then d.map (fun p => p.1)
      else d.map (fun p => p.1) ++ [k] := by
  unfold dictUpdate
  by_cases h : d.any (fun p => p.1 = k)
  · simp only [h, if_true, List.map_map]
    congr 1
    funext p
    by_cases hpk : p.1 = k <;> simp [hpk]
  · simp [h]

/-- Keys of a Python dict after one update: the old keys plus the new key. -/
theorem dictUpdate_keys (d : List (String × ℚ)) (k k' : String) (v : ℚ) :
    (k' ∈ (dictUpdate d k v).map (fun p => p.1)) ↔
      k' ∈ d.map (fun p => p.1) ∨ k' = k := by
  rw [dictUpdate_keymap]
  by_cases h : d.any (fun p => p.1 = k)
  · have hk : k ∈ d.map (fun p => p.1) := by
      rcases List.any_eq_true.mp h with ⟨p, hp, he⟩
      exact List.mem_map.mpr ⟨p, hp, by simpa using he⟩
    simp only [h, if_true]
    constructor
    · exact Or.inl
    · rintro (hm | rfl)
      · exact hm
      · exact hk
  · simp [h, or_comm]

/-- Every key occurring in the input results list occurs among the keys of
the dict built from it. -/
theorem dictOf_key_mem (rs : List SearchResult) (p : SearchResult) (hp : p ∈ rs) :
    p.1 ∈ (dictOf rs).map (fun q => q.1) := by
  suffices h : ∀ (acc : List (String × ℚ)),
      p.1 ∈ acc.map (fun q => q.1) ∨ p ∈ rs →
      p.1 ∈ (rs.foldl (fun d r => dictUpdate d r.1 r.2) acc).map (fun q => q.1) by
    exact h [] (Or.inr hp)
  clear hp
  induction rs with
  | nil =>
      intro acc h
      rcases h with h | h
      · simpa using h
      · cases h
  | cons r rs ih =>
      intro acc h
      simp only [List.foldl_cons]
      apply ih
      rcases h with h | h
      · exact Or.inl ((dictUpdate_keys acc r.1 p.1 r.2).mpr (Or.inl h))
      · rcases List.mem_cons.mp h with h | h
        · exact Or.inl ((dictUpdate_keys acc r.1 p.1 r.2).mpr (Or.inr (by rw [h])))
        · exact Or.inr h

/-- Every value of the dict after one update is the written value or an old
value. -/
theorem dictUpdate_val_mem (d : List (String × ℚ)) (k : String) (v : ℚ) :
    ∀ p ∈ dictUpdate d k v, p.2 = v ∨ ∃ q ∈ d, p.2 = q.2 := by
  intro p hp
  unfold dictUpdate at hp
  by_cases h : d.any (fun p => p.1 = k)
  · simp only [h, if_true] at hp
    rcases List.mem_map.mp hp with ⟨q, hq, he⟩
    by_cases hk : q.1 = k
    · simp only [hk, if_true] at he
      left
      rw [← he]
    · simp only [hk, if_false] at he
      right
      exact ⟨q, hq, by rw [← he]⟩
  · simp only [h, if_false] at hp
    rcases List.mem_append.mp hp with hp | hp
    · exact Or.inr ⟨p, hp, rfl⟩
    · left
      rw [List.mem_singleton.mp hp]

/-- Every value of a dict built from a results list is one of the raw scores
of that list. -/
theorem dictOf_val_mem (rs : List SearchResult) :
    ∀ p ∈ dictOf rs, ∃ r ∈ rs, p.2 = r.2 := by
  have main : ∀ (ss : List SearchResult) (acc : List (String × ℚ))
      (P : ℚ → Prop),
      (∀ p ∈ acc, P p.2) → (∀ r ∈ ss, P r.2) →
      ∀ p ∈ ss.foldl (fun d r => dictUpdate d r.1 r.2) acc, P p.2 := by
    intro ss
    induction ss with
    | nil =>
        intro acc P hacc _ p hp
        exact hacc p hp
    | cons r ss ih =>
        intro acc P hacc hss p hp
        simp only [List.foldl_cons] at hp
        refine ih _ P ?_ (fun q hq => hss q (by simp [hq])) p hp
        intro q hq
        rcases dictUpdate_val_mem acc r.1 r.2 q hq with h | ⟨q', hq', he⟩
        · rw [h]
          exact hss r (by simp)
        · rw [he]
          exact hacc q' hq'
  exact main rs [] (fun v => ∃ r ∈ rs, v = r.2) (by intro p hp; cases hp)
    (fun r hr => ⟨r, hr, rfl⟩)

/-- Looking up a key in an association list whose values have been rewritten
by `g` rewrites the looked-up value by `g`. -/
theorem lookupD_map (sc : List (String × ℚ)) (g : ℚ → ℚ) (k : String) :
    lookupD (sc.map (fun p => (p.1, g p.2))) k = (lookupD sc k).map g := by
  induction sc with
  | nil => rfl
  | cons p ps ih =>
      by_cases hk : p.1 = k
      · simp [lookupD, List.find?, hk]
      · simp only [lookupD, List.map_cons, List.find?] at ih ⊢
        simp only [decide_eq_false hk]
        exact ih

/-- Normalization rewrites every stored score by one monotone function of
the raw score (the identity when normalization is skipped, the min-max
rescaling otherwise). -/
theorem normalizeScores_lookup (results : List SearchResult) (sc nsc : List (String × ℚ))
    (h : normalizeScores results sc = .ok nsc) :
    ∃ g : ℚ → ℚ, (∀ x y, x ≤ y → g x ≤ g y) ∧
      ∀ k, lookupD nsc k = (lookupD sc k).map g := by
  unfold normalizeScores at h
  by_cases hr : results = []
  · simp only [hr, if_true] at h
    exact ⟨id, fun x y hxy => hxy, by
      intro k; cases h; simp⟩
  · simp only [hr, if_false] at h
    by_cases hlt : minV (sc.map (fun p => p.2)) < maxV (sc.map (fun p => p.2))
    · simp only [hlt, if_true] at h
      set mn := minV (sc.map (fun p => p.2)) with hmn
      set mx := maxV (sc.map (fun p => p.2)) with hmx
      have hpos : (0 : ℚ) < mx - mn := sub_pos.mpr hlt
      rw [mapM_div_ok mn mx (ne_of_gt hpos) sc] at h
      cases h
      refine ⟨fun x => (x - mn) / (mx - mn), ?_,
        fun k => lookupD_map sc (fun x => (x - mn) / (mx - mn)) k⟩
      intro x y hxy
      exact (div_le_div_iff_of_pos_right hpos).mpr (sub_le_sub_right hxy mn)
    · simp only [hlt, if_false] at h
      cases h
      exact ⟨id, fun x y hxy => hxy, by intro k; simp⟩

/-- Once both normalizations succeed, the fused output is the stable
descending sort of the first-seen key order, annotated with combined
scores. -/
theorem combineSearchResults_eq (ft vec : List SearchResult) (wf wv : ℚ)
    (nf nv : List (String × ℚ))
    (hnf : normalizeScores ft (dictOf ft) = .ok nf)
    (hnv : normalizeScores vec (dictOf vec) = .ok nv) :
    combineSearchResults ft vec wf wv =
      .ok ((sortDesc (combinedScore nf nv wf wv)
              ((dictOf (ft ++ vec)).map (fun p => p.1))).map
        (fun k => (k, combinedScore nf nv wf wv k))) := by
  simp only [combineSearchResults, hnf, hnv, exc_bind_ok]
  rfl

theorem insertDesc_mem (f : String → ℚ) (k a : String) (l : List String) :
    a ∈ insertDesc f k l ↔ a = k ∨ a ∈ l := by
  induction l with
  | nil => simp [insertDesc]
  | cons k' ks ih =>
      unfold insertDesc
      by_cases h : f k' < f k
      · simp [h]
      · simp only [h, if_false, List.mem_cons, ih]
        tauto

/-- The stable descending sort is a permutation at the level of
membership. -/
theorem sortDesc_mem (f : String → ℚ) (l : List String) (a : String) :
    a ∈ sortDesc f l ↔ a ∈ l := by
  suffices h : ∀ (acc : List String),
      a ∈ l.foldl (fun acc k => insertDesc f k acc) acc ↔ a ∈ acc ∨ a ∈ l by
    simpa using h []
  induction l with
  | nil => simp
  | cons k ks ih =>
      intro acc
      simp only [List.foldl_cons, ih, insertDesc_mem, List.mem_cons]
      tauto

/-- A channel whose raw scores are all one value has an all-equal score
dict, so its normalization is skipped and returns the dict unchanged. -/
theorem normalizeScores_equal_skip (rs : List SearchResult)
    (h : ∀ p ∈ rs, ∀ q ∈ rs, p.2 = q.2) :
    normalizeScores rs (dictOf rs) = .ok (dictOf rs) := by
  unfold normalizeScores
  by_cases hr : rs = []
  · simp [hr]
  · simp only [hr, if_false]
    have heq : maxV ((dictOf rs).map (fun p => p.2)) = minV ((dictOf rs).map (fun p => p.2)) := by
      apply maxV_eq_minV
      intro x hx y hy
      rcases List.mem_map.mp hx with ⟨p, hp, hpe⟩
      rcases List.mem_map.mp hy with ⟨q, hq, hqe⟩
      rcases dictOf_val_mem rs p hp with ⟨r, hrm, hre⟩
      rcases dictOf_val_mem rs q hq with ⟨r', hrm', hre'⟩
      rw [← hpe, ← hqe, hre, hre']
      exact h r hrm r' hrm'
    rw [heq]
    simp

/-- Claim C1 — Scenario 4 of the spec. Fusing fulltext results
`[{key:"a",score:10},{key:"b",score:5}]` with vector results
`[{key:"b",score:0.9},{key:"c",score:0.1}]` under weights
`fulltext = vector = 0.4`: each channel is min-max normalized
independently, a candidate absent from a channel contributes 0 for that
channel, the combined scores are `a = 0.4`, `b = 0.4`, `c = 0`, and the
output order is `a, b, c` — the `a`/`b` tie is broken by first-seen order
in `fulltext_results + vector_results` under the stable descending sort. -/
theorem fusion_scenario4 :
    combineSearchResults [("a", 10), ("b", 5)] [("b", (9 : ℚ)/10), ("c", (1 : ℚ)/10)]
        ((2 : ℚ)/5) ((2 : ℚ)/5)
      = .ok [("a", (2 : ℚ)/5), ("b", (2 : ℚ)/5), ("c", 0)] := by
  norm_num +decide [combineSearchResults, normalizeScores, dictOf, dictUpdate, maxV, minV,
    divE, combinedScore, lookupD, sortDesc, insertDesc, exc_bind_ok, exc_pure,
    List.mapM, List.mapM.loop]

/-- Claim C2 — zero-division guard. For every fusion input in which all
results of one channel (fulltext or vector) share a single raw score,
fusion does not fail: the constant channel's min-max normalization is
skipped by its own `max > min` guard (its score dict is returned exactly as
computed), the whole combination succeeds, and the output still assigns a
combined score to every candidate in the union of the two channels. -/
theorem fusion_equal_channel_no_failure (ft vec : List SearchResult) (wf wv : ℚ)
    (h : (∀ p ∈ ft, ∀ q ∈ ft, p.2 = q.2) ∨ (∀ p ∈ vec, ∀ q ∈ vec, p.2 = q.2)) :
    ((∀ p ∈ ft, ∀ q ∈ ft, p.2 = q.2) →
      normalizeScores ft (dictOf ft) = .ok (dictOf ft)) ∧
    ((∀ p ∈ vec, ∀ q ∈ vec, p.2 = q.2) →
      normalizeScores vec (dictOf vec) = .ok (dictOf vec)) ∧
    ∃ out, combineSearchResults ft vec wf wv = .ok out ∧
      ∀ p ∈ ft ++ vec, p.1 ∈ out.map (fun r => r.1) := by
  clear h
  refine ⟨fun hf => normalizeScores_equal_skip ft hf,
    fun hv => normalizeScores_equal_skip vec hv, ?_⟩
  rcases normalizeScores_ok ft (dictOf ft) with ⟨nf, hnf⟩
  rcases normalizeScores_ok vec (dictOf vec) with ⟨nv, hnv⟩
  refine ⟨_, combineSearchResults_eq ft vec wf wv nf nv hnf hnv, ?_⟩
  intro p hp
  rw [List.map_map]
  have h1 : p.1 ∈ (dictOf (ft ++ vec)).map (fun q => q.1) := dictOf_key_mem _ p hp
  have h2 : p.1 ∈ sortDesc (combinedScore nf nv wf wv)
      ((dictOf (ft ++ vec)).map (fun q => q.1)) := (sortDesc_mem _ _ _).mpr h1
  exact List.mem_map.mpr ⟨p.1, h2, rfl⟩

/-- Claim C2 witness, covering both channels: a constant-score fulltext
channel `[("a",7),("b",7)]` fused with `[("c",1)]`, and a constant-score
vector channel `[("f",5),("g",5)]` fused under a non-constant fulltext
channel `[("d",3),("e",1)]`; both succeed with full key coverage and the
constant channel's normalization skipped. -/
theorem fusion_equal_channel_no_failure_witness :
    (((∀ p ∈ ([("a", 7), ("b", 7)] : List SearchResult),
          ∀ q ∈ ([("a", 7), ("b", 7)] : List SearchResult), p.2 = q.2) ∨
        (∀ p ∈ ([("c", 1)] : List SearchResult),
          ∀ q ∈ ([("c", 1)] : List SearchResult), p.2 = q.2)) ∧
      (((∀ p ∈ ([("a", 7), ("b", 7)] : List SearchResult),
            ∀ q ∈ ([("a", 7), ("b", 7)] : List SearchResult), p.2 = q.2) →
          normalizeScores [("a", 7), ("b", 7)] (dictOf [("a", 7), ("b", 7)])
            = .ok (dictOf [("a", 7), ("b", 7)])) ∧
        ((∀ p ∈ ([("c", 1)] : List SearchResult),
            ∀ q ∈ ([("c", 1)] : List SearchResult), p.2 = q.2) →
          normalizeScores [("c", 1)] (dictOf [("c", 1)])
            = .ok (dictOf [("c", 1)])) ∧
        ∃ out, combineSearchResults [("a", 7), ("b", 7)] [("c", 1)]
            ((2 : ℚ)/5) ((2 : ℚ)/5) = .ok out ∧
          ∀ p ∈ ([("a", 7), ("b", 7)] : List SearchResult) ++ [("c", 1)],
            p.1 ∈ out.map (fun r => r.1))) ∧
    (((∀ p ∈ ([("d", 3), ("e", 1)] : List SearchResult),
          ∀ q ∈ ([("d", 3), ("e", 1)] : List SearchResult), p.2 = q.2) ∨
        (∀ p ∈ ([("f", 5), ("g", 5)] : List SearchResult),
          ∀ q ∈ ([("f", 5), ("g", 5)] : List SearchResult), p.2 = q.2)) ∧
      (((∀ p ∈ ([("d", 3), ("e", 1)] : List SearchResult),
            ∀ q ∈ ([("d", 3), ("e", 1)] : List SearchResult), p.2 = q.2) →
          normalizeScores [("d", 3), ("e", 1)] (dictOf [("d", 3), ("e", 1)])
            = .ok (dictOf [("d", 3), ("e", 1)])) ∧
        ((∀ p ∈ ([("f", 5), ("g", 5)] : List SearchResult),
            ∀ q ∈ ([("f", 5), ("g", 5)] : List SearchResult), p.2 = q.2) →
          normalizeScores [("f", 5), ("g", 5)] (dictOf [("f", 5), ("g", 5)])
            = .ok (dictOf [("f", 5), ("g", 5)])) ∧
        ∃ out, combineSearchResults [("d", 3), ("e", 1)] [("f", 5), ("g", 5)]
            ((2 : ℚ)/5) ((2 : ℚ)/5) = .ok out ∧
          ∀ p ∈ ([("d", 3), ("e", 1)] : List SearchResult) ++ [("f", 5), ("g", 5)],
            p.1 ∈ out.map (fun r => r.1))) :=
  ⟨⟨Or.inl (by decide),
      fusion_equal_channel_no_failure [("a", 7), ("b", 7)] [("c", 1)]
        ((2 : ℚ)/5) ((2 : ℚ)/5) (Or.inl (by decide))⟩,
    ⟨Or.inr (by decide),
      fusion_equal_channel_no_failure [("d", 3), ("e", 1)] [("f", 5), ("g", 5)]
        ((2 : ℚ)/5) ((2 : ℚ)/5) (Or.inr (by decide))⟩⟩

/-- Claim C3 — fusion monotonicity. For candidates `a` and `b` present in
both channels (their keys resolve in both score dicts), if `a` dominates
`b` raw-score-wise in both channels, then under the default non-negative
weights 0.4/0.4 the combined score attached to `a` in the fused output is
≥ the one attached to `b`. -/
theorem fusion_monotone (ft vec : List SearchResult) (a b : String)
    (fa fb va vb : ℚ) (out : List (String × ℚ)) (ca cb : ℚ)
    (hfa : lookupD (dictOf ft) a = some fa) (hfb : lookupD (dictOf ft) b = some fb)
    (hva : lookupD (dictOf vec) a = some va) (hvb : lookupD (dictOf vec) b = some vb)
    (h1 : fb ≤ fa) (h2 : vb ≤ va)
    (hout : combineSearchResults ft vec ((2 : ℚ)/5) ((2 : ℚ)/5) = .ok out)
    (ha : (a, ca) ∈ out) (hb : (b, cb) ∈ out) : cb ≤ ca := by
  rcases normalizeScores_ok ft (dictOf ft) with ⟨nf, hnf⟩
  rcases normalizeScores_ok vec (dictOf vec) with ⟨nv, hnv⟩
  rw [combineSearchResults_eq ft vec _ _ nf nv hnf hnv] at hout
  have hout' : out = (sortDesc (combinedScore nf nv ((2 : ℚ)/5) ((2 : ℚ)/5))
      ((dictOf (ft ++ vec)).map (fun p => p.1))).map
        (fun k => (k, combinedScore nf nv ((2 : ℚ)/5) ((2 : ℚ)/5) k)) :=
    (Except.ok.injEq _ _).mp hout.symm
  subst hout'
  rcases List.mem_map.mp ha with ⟨ka, _, hka⟩
  rcases List.mem_map.mp hb with ⟨kb, _, hkb⟩
  have hca : ca = combinedScore nf nv ((2 : ℚ)/5) ((2 : ℚ)/5) a := by
    have h1 := congrArg Prod.fst hka
    have h2 := congrArg Prod.snd hka
    simp only at h1 h2
    rw [← h2, h1]
  have hcb : cb = combinedScore nf nv ((2 : ℚ)/5) ((2 : ℚ)/5) b := by
    have h1 := congrArg Prod.fst hkb
    have h2 := congrArg Prod.snd hkb
    simp only at h1 h2
    rw [← h2, h1]
  rcases normalizeScores_lookup ft (dictOf ft) nf hnf with ⟨g, hgmono, hg⟩
  rcases normalizeScores_lookup vec (dictOf vec) nv hnv with ⟨g', hgmono', hg'⟩
  rw [hca, hcb]
  unfold combinedScore
  rw [hg a, hg b, hg' a, hg' b, hfa, hfb, hva, hvb]
  simp only [Option.map_some', Option.getD_some]
  have w1 : g fb * ((2 : ℚ)/5) ≤ g fa * ((2 : ℚ)/5) :=
    mul_le_mul_of_nonneg_right (hgmono _ _ h1) (by norm_num)
  have w2 : g' vb * ((2 : ℚ)/5) ≤ g' va * ((2 : ℚ)/5) :=
    mul_le_mul_of_nonneg_right (hgmono' _ _ h2) (by norm_num)
  exact add_le_add w1 w2

/-- Claim C3 witness: with fulltext scores x=3 ≥ y=1 and vector scores
x=2 ≥ y=2, the fused output ranks x with combined score 6/5 above y with
4/5. -/
theorem fusion_monotone_witness :
    lookupD (dictOf [("x", 3), ("y", 1)]) "x" = some 3 ∧
    lookupD (dictOf [("x", 3), ("y", 1)]) "y" = some 1 ∧
    lookupD (dictOf [("x", 2), ("y", 2)]) "x" = some 2 ∧
    lookupD (dictOf [("x", 2), ("y", 2)]) "y" = some 2 ∧
    (1 : ℚ) ≤ 3 ∧ (2 : ℚ) ≤ 2 ∧
    combineSearchResults [("x", 3), ("y", 1)] [("x", 2), ("y", 2)] ((2 : ℚ)/5) ((2 : ℚ)/5)
      = .ok [("x", (6 : ℚ)/5), ("y", (4 : ℚ)/5)] ∧
    (4 : ℚ)/5 ≤ (6 : ℚ)/5 := by
  have hout : combineSearchResults [("x", 3), ("y", 1)] [("x", 2), ("y", 2)]
      ((2 : ℚ)/5) ((2 : ℚ)/5) = .ok [("x", (6 : ℚ)/5), ("y", (4 : ℚ)/5)] := by
    norm_num +decide [combineSearchResults, normalizeScores, dictOf, dictUpdate, maxV, minV,
      divE, combinedScore, lookupD, sortDesc, insertDesc, exc_bind_ok, exc_pure,
      List.mapM, List.mapM.loop]
  refine ⟨by decide, by decide, by decide, by decide, by decide, by decide, hout, ?_⟩
  exact fusion_monotone [("x", 3), ("y", 1)] [("x", 2), ("y", 2)] "x" "y" 3 1 2 2
    [("x", (6 : ℚ)/5), ("y", (4 : ℚ)/5)] ((6 : ℚ)/5) ((4 : ℚ)/5)
    (by decide) (by decide) (by decide) (by decide) (by decide) (by decide)
    hout (List.Mem.head _) (List.Mem.tail _ (List.Mem.head _))

/-- A list of naturals deduplicates to at most one element exactly when all
its elements are equal. -/
theorem dedup_length_le_one_iff (xs : List Nat) :
    xs.dedup.length ≤ 1 ↔ ∀ a ∈ xs, ∀ b ∈ xs, a = b := by
  constructor
  · intro h a ha b hb
    have ha' : a ∈ xs.dedup := List.mem_dedup.mpr ha
    have hb' : b ∈ xs.dedup := List.mem_dedup.mpr hb
    match hd : xs.dedup with
    | [] => rw [hd] at ha'; cases ha'
    | [x] =>
        rw [hd] at ha' hb'
        rw [List.mem_singleton.mp ha', List.mem_singleton.mp hb']
    | x :: y :: t => rw [hd] at h; simp at h
  · intro h
    rcases hd : xs.dedup with _ | ⟨x, t⟩
    · simp
    · rcases t with _ | ⟨y, t'⟩
      · simp
      · exfalso
        have hnd := xs.nodup_dedup
        rw [hd] at hnd
        have hx : x ∈ xs := List.mem_dedup.mp (by rw [hd]; simp)
        have hy : y ∈ xs := List.mem_dedup.mp (by rw [hd]; simp)
        have hxy : x = y := h x hx y hy
        simp [hxy] at hnd

/-- A filtered enumeration is empty exactly when no element satisfies the
predicate. -/
theorem enumFrom_filter_eq_nil {α : Type} (q : α → Bool) :
    ∀ (n : Nat) (l : List α),
      ((List.enumFrom n l).filter (fun p => q p.2) = []) ↔ ∀ e ∈ l, q e = false := by
  intro n l
  induction l generalizing n with
  | nil => simp
  | cons x xs ih =>
      simp only [List.enumFrom, List.filter_cons]
      by_cases hq : q x
      · simp only [hq, if_true]
        constructor
        · intro h
          cases h
        · intro h
          have hx := h x (by simp)
          rw [hq] at hx
          cases hx
      · have hqf : q x = false := by simpa using hq
        simp only [hqf, Bool.false_eq_true, if_false]
        rw [ih (n + 1)]
        constructor
        · intro h e he
          rcases List.mem_cons.mp he with he | he
          · rw [he]; exact hqf
          · exact h e he
        · intro h e he
          exact h e (List.mem_cons.mpr (Or.inr he))

theorem forall_mem_map_pair {α : Type} (l : List α) (f : α → Nat) :
    (∀ a ∈ l.map f, ∀ b ∈ l.map f, a = b) ↔ ∀ e ∈ l, ∀ g ∈ l, f e = f g := by
  constructor
  · intro h e he g hg
    exact h _ (List.mem_map_of_mem f he) _ (List.mem_map_of_mem f hg)
  · intro h a ha b hb
    rcases List.mem_map.mp ha with ⟨e, he, rfl⟩
    rcases List.mem_map.mp hb with ⟨g, hg, rfl⟩
    exact h e he g hg

theorem filtered_enum_ne_nil {α : Type} (l : List α) (q : α → Bool) :
    ((l.enum.filter (fun p => q p.2)).map (fun p => p.1) ≠ []) ↔ ∃ e ∈ l, q e = true := by
  rw [Ne, List.map_eq_nil_iff, List.enum, enumFrom_filter_eq_nil]
  constructor
  · intro h
    by_contra hno
    push_neg at hno
    exact h (fun e he => by
      rcases Bool.eq_false_or_eq_true (q e) with ht | hf
      · exact absurd ht (hno e he)
      · exact hf)
  · rintro ⟨e, he, ht⟩ hall
    rw [hall e he] at ht
    cases ht

/-- Claim C6 — `validate_embeddings` reports invalid exactly when the batch
is empty, the vector lengths are not all equal, or some vector is empty; it
reports at least one warning exactly when some content is shorter than 10
characters or some generation time exceeds 10 seconds (warnings never touch
validity). -/
theorem validate_embeddings_spec (l : List EmbeddingResult) :
    ((validate_embeddings l).valid = false ↔
      (l = [] ∨
        ¬ (∀ e ∈ l, ∀ g ∈ l, e.embedding.length = g.embedding.length) ∨
        ∃ e ∈ l, e.embedding = [])) ∧
    ((validate_embeddings l).warnings ≠ [] ↔
      ((∃ e ∈ l, e.content.length < 10) ∨ ∃ e ∈ l, (10 : ℚ) < e.generation_time)) := by
  by_cases hl : l = []
  · subst hl
    refine ⟨by simp [validate_embeddings], by simp [validate_embeddings]⟩
  · have hle : l.isEmpty = false := by simpa using hl
    have hdim : (1 < ((l.map (fun e => e.embedding.length)).dedup).length) ↔
        ¬ (∀ e ∈ l, ∀ g ∈ l, e.embedding.length = g.embedding.length) := by
      rw [← forall_mem_map_pair l (fun e => e.embedding.length),
        ← dedup_length_le_one_iff]
      omega
    have hemp := filtered_enum_ne_nil l (fun e => e.embedding.isEmpty)
    have hshort := filtered_enum_ne_nil l (fun e => decide (e.content.length < 10))
    have hlong := filtered_enum_ne_nil l (fun e => decide ((10 : ℚ) < e.generation_time))
    constructor
    · simp only [validate_embeddings, hle, Bool.false_eq_true, if_false]
      rw [Bool.not_eq_false', Bool.or_eq_true, decide_eq_true_iff, Bool.not_eq_true']
      have hBe : ((List.map (fun p => p.1)
          (List.filter (fun p => p.2.embedding.isEmpty) l.enum)).isEmpty = false) ↔
          (List.map (fun p => p.1)
            (List.filter (fun p => p.2.embedding.isEmpty) l.enum)) ≠ [] := by
        rw [Ne, ← List.isEmpty_iff]
        simp
      rw [hBe, hdim, hemp]
      simp only [List.isEmpty_iff, hl, false_or]
    · simp only [validate_embeddings, hle, Bool.false_eq_true, if_false]
      have hs := hshort
      have hlg := hlong
      simp only [decide_eq_true_iff] at hs hlg
      by_cases h1 : (List.map (fun p => p.1)
          (List.filter (fun p => decide (p.2.content.length < 10)) l.enum)).isEmpty = true
      · have h1' : ¬ ∃ e ∈ l, e.content.length < 10 := by
          rw [← hs, List.isEmpty_iff.mp h1]
          simp
        by_cases h2 : (List.map (fun p => p.1)
            (List.filter (fun p => decide ((10 : ℚ) < p.2.generation_time)) l.enum)).isEmpty = true
        · have h2' : ¬ ∃ e ∈ l, (10 : ℚ) < e.generation_time := by
            rw [← hlg, List.isEmpty_iff.mp h2]
            simp
          simp [h1, h2, h1', h2']
        · have hne : (List.map (fun p => p.1)
              (List.filter (fun p => decide ((10 : ℚ) < p.2.generation_time)) l.enum)) ≠ [] := by
            intro hc
            exact h2 (by simp [hc])
          have h2' : ∃ e ∈ l, (10 : ℚ) < e.generation_time := hlg.mp hne
          simp [h1, h2, h1', h2']
      · have hne : (List.map (fun p => p.1)
            (List.filter (fun p => decide (p.2.content.length < 10)) l.enum)) ≠ [] := by
          intro hc
          exact h1 (by simp [hc])
        have h1' : ∃ e ∈ l, e.content.length < 10 := hs.mp hne
        simp [h1, h1']

/-- Claim C7 counterexample: with two prepared documents of which the second
fails to persist, the claim predicts the returned key list `["1"]` (the
failed item skipped, the other's key kept), but `insert_documents_batch`
returns `[]` — the whole batch's keys are dropped. -/
theorem insert_documents_batch_drops_all :
    insert_documents_batch [sampleEmbedding, sampleEmbedding]
        [.ok "1", .error "DocumentInsertError"] = [] ∧
    insert_documents_batch [sampleEmbedding, sampleEmbedding]
        [.ok "1", .error "DocumentInsertError"] ≠ ["1"] := by
  constructor
  · rfl
  · intro h
    cases h

/-- Claim C7 (amended): batch key reporting is all-or-nothing. For a
non-empty input batch, if every per-item insert succeeds the returned list
is exactly the assigned keys in order, and if any per-item insert fails the
function returns the empty list — the successful items' keys are omitted as
well. -/
theorem insert_documents_batch_all_or_nothing (rs : List EmbeddingResult)
    (outcomes : List (Except String String)) (h : rs ≠ []) :
    ((∀ o ∈ outcomes, ∃ k, o = .ok k) →
      insert_documents_batch rs outcomes
        = outcomes.filterMap (fun o => match o with | .ok k => some k | .error _ => none)) ∧
    ((∃ o ∈ outcomes, ∃ m, o = .error m) →
      insert_documents_batch rs outcomes = []) := by
  have hne : rs.isEmpty = false := by
    cases rs with
    | nil => exact absurd rfl h
    | cons a t => rfl
  constructor
  · intro hall
    unfold insert_documents_batch
    rw [hne]
    simp only [Bool.false_eq_true, if_false]
    have hkeys : extractBatchKeys outcomes
        = some (outcomes.filterMap (fun o => match o with | .ok k => some k | .error _ => none)) := by
      unfold extractBatchKeys
      induction outcomes with
      | nil => rfl
      | cons o os ih =>
          rcases hall o (by simp) with ⟨k, rfl⟩
          rw [List.mapM_cons, ih (fun o ho => hall o (by simp [ho]))]
          rfl
    rw [hkeys]
  · rintro ⟨o, ho, m, rfl⟩
    unfold insert_documents_batch
    rw [hne]
    simp only [Bool.false_eq_true, if_false]
    have hkeys : extractBatchKeys outcomes = none := by
      unfold extractBatchKeys
      induction outcomes with
      | nil => cases ho
      | cons p os ih =>
          rcases List.mem_cons.mp ho with hp | hp
          · rw [← hp, List.mapM_cons]
            rfl
          · rw [List.mapM_cons]
            cases hm : (match p with
                | .ok k => some k
                | .error _ => (none : Option String)) with
            | none => rfl
            | some k => rw [ih hp]; rfl
    rw [hkeys]

/-- Claim C7 amended-theorem witness at a concrete batch: an all-ok outcome
list returns both keys; an outcome list with one failure returns `[]`. -/
theorem insert_documents_batch_all_or_nothing_witness :
    ([sampleEmbedding] : List EmbeddingResult) ≠ [] ∧
    ((∀ o ∈ ([.ok "1", .ok "2"] : List (Except String String)), ∃ k, o = .ok k) →
      insert_documents_batch [sampleEmbedding] [.ok "1", .ok "2"]
        = ([.ok "1", .ok "2"] : List (Except String String)).filterMap
            (fun o => match o with | .ok k => some k | .error _ => none)) ∧
    ((∃ o ∈ ([.ok "1", .ok "2"] : List (Except String String)), ∃ m, o = .error m) →
      insert_documents_batch [sampleEmbedding] [.ok "1", .ok "2"] = []) :=
  ⟨List.cons_ne_nil _ _,
    insert_documents_batch_all_or_nothing [sampleEmbedding] [.ok "1", .ok "2"]
      (List.cons_ne_nil _ _)⟩

/-- Claim C8 counterexample: when the bulk-download stage raises (here a
connection error), `process_all_tax_laws` propagates the exception to its
caller instead of converting it into a structured outcome — the claim that
it "never raises past its own boundary" is false on the code. -/
theorem process_all_tax_laws_reraises :
    process_all_tax_laws (.error "ConnectionError")
        (fun lid path => process_single_law lid path false none
          (.error "") (.error "") (.error ""))
      = .error "ConnectionError" := rfl

/-- Claim C8 (amended): `process_single_law` is exception-free — for every
combination of stage outcomes it returns a structured dict, with
`success = true` and no error field on a full run, and `success = false`
together with an error message on any stage failure. `process_all_tax_laws`
however re-raises: it propagates any download-stage exception unchanged, and
returns a structured summary (without raising) only when the download stage
itself did not raise. -/
theorem orchestrator_error_boundaries :
    (∀ (law_id : String) (xml_file_path : Option String) (file_found : Bool)
        (parse_result : Option LawDocument)
        (preprocess_outcome : Except String LawDocument)
        (embed_outcome : Except String (List EmbeddingResult))
        (store_outcome : Except String (List String)),
      ((process_single_law law_id xml_file_path file_found parse_result
          preprocess_outcome embed_outcome store_outcome).success = true ∧
        (process_single_law law_id xml_file_path file_found parse_result
          preprocess_outcome embed_outcome store_outcome).error = none) ∨
      ((process_single_law law_id xml_file_path file_found parse_result
          preprocess_outcome embed_outcome store_outcome).success = false ∧
        ∃ msg, (process_single_law law_id xml_file_path file_found parse_result
          preprocess_outcome embed_outcome store_outcome).error = some msg)) ∧
    (∀ (msg : String) (single : String → Option String → ProcessOutcome),
      process_all_tax_laws (.error msg) single = .error msg) ∧
    (∀ (drs : List DownloadResult) (single : String → Option String → ProcessOutcome),
      ∃ summary, process_all_tax_laws (.ok drs) single = .ok summary) := by
  refine ⟨?_, fun msg single => rfl, fun drs single => ⟨_, rfl⟩⟩
  intro law_id xml_file_path file_found parse_result pre emb store
  unfold process_single_law
  cases hp : process_single_law_pipeline law_id xml_file_path file_found parse_result
      pre emb store with
  | ok x => left; exact ⟨rfl, rfl⟩
  | error e => right; exact ⟨rfl, e, rfl⟩

theorem squeezeAux_mem (b : Bool) (l : List Char) :
    ∀ c ∈ squeezeAux b l, c ∈ l ∨ c = ' ' := by
  induction l generalizing b with
  | nil => intro c hc; cases hc
  | cons x xs ih =>
      intro c hc
      unfold squeezeAux at hc
      by_cases hx : pyIsSpace x
      · simp only [hx, if_true] at hc
        cases b with
        | true =>
            rcases ih true c hc with h | h
            · exact Or.inl (List.mem_cons.mpr (Or.inr h))
            · exact Or.inr h
        | false =>
            rcases List.mem_cons.mp hc with h | h
            · exact Or.inr h
            · rcases ih true c h with h' | h'
              · exact Or.inl (List.mem_cons.mpr (Or.inr h'))
              · exact Or.inr h'
      · simp only [hx, Bool.false_eq_true, if_false] at hc
        rcases List.mem_cons.mp hc with h | h
        · exact Or.inl (List.mem_cons.mpr (Or.inl h))
        · rcases ih false c h with h' | h'
          · exact Or.inl (List.mem_cons.mpr (Or.inr h'))
          · exact Or.inr h'

/-- After squeezing, every whitespace character is the ASCII space. -/
theorem squeezeAux_space_ascii (b : Bool) (l : List Char) :
    ∀ c ∈ squeezeAux b l, pyIsSpace c = true → c = ' ' := by
  induction l generalizing b with
  | nil => intro c hc; cases hc
  | cons x xs ih =>
      intro c hc hsp
      unfold squeezeAux at hc
      by_cases hx : pyIsSpace x
      · simp only [hx, if_true] at hc
        cases b with
        | true => exact ih true c hc hsp
        | false =>
            rcases List.mem_cons.mp hc with h | h
            · exact h
            · exact ih true c h hsp
      · simp only [hx, Bool.false_eq_true, if_false] at hc
        rcases List.mem_cons.mp hc with h | h
        · rw [h] at hsp
          rw [hsp] at hx
          cases hx rfl
        · exact ih false c h hsp

/-- Running `squeezeAux true` never emits a leading space: its head, if any, is the
first non-space character. -/
theorem squeezeAux_true_head (l : List Char) :
    ∀ c, (squeezeAux true l).head? = some c → pyIsSpace c = false := by
  induction l with
  | nil => intro c hc; cases hc
  | cons x xs ih =>
      intro c hc
      unfold squeezeAux at hc
      by_cases hx : pyIsSpace x
      · simp only [hx, if_true] at hc
        exact ih c hc
      · simp only [hx, Bool.false_eq_true, if_false, List.head?_cons, Option.some.injEq] at hc
        rw [← hc]
        simpa using hx

/-- Squeezing leaves no two adjacent whitespace characters. -/
theorem squeezeAux_noTwoSpaces (b : Bool) (l : List Char) :
    NoTwoSpaces (squeezeAux b l) := by
  induction l generalizing b with
  | nil => exact List.chain'_nil
  | cons x xs ih =>
      unfold squeezeAux
      by_cases hx : pyIsSpace x
      · simp only [hx, if_true]
        cases b with
        | true => exact ih true
        | false =>
            simp only [Bool.false_eq_true, if_false]
            rw [show NoTwoSpaces (' ' :: squeezeAux true xs) ↔ _ from List.chain'_cons']
            refine ⟨?_, ih true⟩
            intro d hd hand
            rw [squeezeAux_true_head xs d hd] at hand
            exact absurd hand.2 (by simp)
      · simp only [hx, Bool.false_eq_true, if_false]
        rw [show NoTwoSpaces (x :: squeezeAux false xs) ↔ _ from List.chain'_cons']
        refine ⟨?_, ih false⟩
        intro d hd hand
        rw [hand.1] at hx
        exact hx rfl

/-- On a list that is already in squeezed form (all spaces ASCII, no two
adjacent), squeezing is the identity. -/
theorem squeezeAux_eq_self (l : List Char)
    (h2 : ∀ c ∈ l, pyIsSpace c = true → c = ' ') (h3 : NoTwoSpaces l) :
    squeezeAux false l = l ∧
    ((∀ c, l.head? = some c → pyIsSpace c = false) → squeezeAux true l = l) := by
  induction l with
  | nil => exact ⟨rfl, fun _ => rfl⟩
  | cons x xs ih =>
      have h2' : ∀ c ∈ xs, pyIsSpace c = true → c = ' ' :=
        fun c hc => h2 c (List.mem_cons.mpr (Or.inr hc))
      have h3' : NoTwoSpaces xs := (List.chain'_cons'.mp h3).2
      have hrel := (List.chain'_cons'.mp h3).1
      rcases ih h2' h3' with ⟨ihf, iht⟩
      by_cases hx : pyIsSpace x
      · have hxsp : x = ' ' := h2 x (by simp) hx
        have hxs_head : ∀ c, xs.head? = some c → pyIsSpace c = false := by
          intro c hc
          by_contra hcsp
          exact hrel c hc ⟨hx, by simpa using hcsp⟩
        constructor
        · unfold squeezeAux
          simp only [hx, if_true, Bool.false_eq_true, if_false]
          rw [iht hxs_head, hxsp]
        · intro hhead
          have := hhead x (by simp)
          rw [hx] at this
          cases this
      · constructor
        · unfold squeezeAux
          simp only [hx, Bool.false_eq_true, if_false]
          rw [ihf]
        · intro _
          unfold squeezeAux
          simp only [hx, Bool.false_eq_true, if_false]
          rw [ihf]

theorem dropWhile_head_not (p : Char → Bool) (l : List Char) :
    ∀ c, (l.dropWhile p).head? = some c → p c = false := by
  induction l with
  | nil => intro c hc; cases hc
  | cons x xs ih =>
      intro c hc
      by_cases hx : p x
      · rw [List.dropWhile_cons_of_pos hx] at hc
        exact ih c hc
      · rw [List.dropWhile_cons_of_neg hx] at hc
        simp only [List.head?_cons, Option.some.injEq] at hc
        rw [← hc]
        simpa using hx

theorem dropWhile_eq_self_of_head (p : Char → Bool) (l : List Char)
    (h : ∀ c, l.head? = some c → p c = false) : l.dropWhile p = l := by
  cases l with
  | nil => rfl
  | cons x xs =>
      have hx : p x = false := h x (by simp)
      rw [List.dropWhile_cons_of_neg (by simp [hx])]

theorem prefix_head_some {l m : List Char} {c : Char} (h : l <+: m)
    (hc : l.head? = some c) : m.head? = some c := by
  rcases h with ⟨t, rfl⟩
  cases l with
  | nil => cases hc
  | cons a as => simpa using hc

/-- The list `trimRightChars l` is a prefix of `l`. -/
theorem trimRightChars_pre (l : List Char) : trimRightChars l <+: l := by
  have h : (trimRightChars l).reverse <:+ l.reverse := by
    unfold trimRightChars
    rw [List.reverse_reverse]
    exact List.dropWhile_suffix pyIsSpace
  exact List.reverse_suffix.mp (by simpa using h)

theorem stripChars_mem (l : List Char) : ∀ c ∈ stripChars l, c ∈ l := by
  intro c hc
  unfold stripChars at hc
  have h1 : c ∈ trimLeftChars l := (trimRightChars_pre _).subset hc
  exact (List.dropWhile_sublist _).subset h1

theorem stripChars_noEdgeSpace (l : List Char) : NoEdgeSpace (stripChars l) := by
  constructor
  · intro c hc
    have h1 : (trimLeftChars l).head? = some c :=
      prefix_head_some (trimRightChars_pre _) hc
    exact dropWhile_head_not pyIsSpace l c h1
  · intro c hc
    unfold stripChars trimRightChars at hc
    rw [List.getLast?_reverse] at hc
    exact dropWhile_head_not pyIsSpace _ c hc

theorem stripChars_noTwoSpaces (l : List Char) (h : NoTwoSpaces l) :
    NoTwoSpaces (stripChars l) := by
  have hinf1 : trimLeftChars l <:+: l :=
    List.IsSuffix.isInfix (List.dropWhile_suffix pyIsSpace)
  have h1 : NoTwoSpaces (trimLeftChars l) := List.Chain'.infix h hinf1
  have hinf2 : trimRightChars (trimLeftChars l) <:+: trimLeftChars l :=
    List.IsPrefix.isInfix (trimRightChars_pre _)
  exact List.Chain'.infix h1 hinf2

theorem stripChars_eq_self (l : List Char) (h : NoEdgeSpace l) : stripChars l = l := by
  unfold stripChars
  rw [show trimLeftChars l = l from dropWhile_eq_self_of_head pyIsSpace l h.1]
  unfold trimRightChars
  rw [dropWhile_eq_self_of_head pyIsSpace l.reverse (by
    intro c hc
    rw [List.head?_reverse] at hc
    exact h.2 c hc), List.reverse_reverse]

theorem map_eq_self_of_mem {α : Type} (f : α → α) (l : List α)
    (h : ∀ c ∈ l, f c = c) : l.map f = l := by
  induction l with
  | nil => rfl
  | cons x xs ih =>
      rw [List.map_cons, h x (by simp), ih (fun c hc => h c (by simp [hc]))]

theorem allowedChar_space (wp : Char → Bool) : allowedChar wp ' ' = true := by
  have hsp : pyIsSpace ' ' = true := by decide
  simp [allowedChar, hsp]

/-- Every character of `cleanChars`' output is allowed; all its whitespace
is ASCII; no two spaces are adjacent; neither end is a space. -/
theorem cleanChars_normal_form (wp : Char → Bool) (l : List Char) :
    (∀ c ∈ cleanChars wp l, allowedChar wp c = true) ∧
    (∀ c ∈ cleanChars wp l, pyIsSpace c = true → c = ' ') ∧
    NoTwoSpaces (cleanChars wp l) ∧ NoEdgeSpace (cleanChars wp l) := by
  unfold cleanChars
  set base := ((stripChars (squeezeSpaces l)).filter (allowedChar wp)).map
    replaceFullWidthSpace with hbase
  have hallow_base : ∀ c ∈ base, allowedChar wp c = true := by
    intro c hc
    rw [hbase] at hc
    rcases List.mem_map.mp hc with ⟨d, hd, hde⟩
    have hdallow : allowedChar wp d = true := (List.mem_filter.mp hd).2
    unfold replaceFullWidthSpace at hde
    by_cases h3000 : d.toNat = 0x3000
    · rw [if_pos h3000] at hde
      rw [← hde]
      exact allowedChar_space wp
    · rw [if_neg h3000] at hde
      rw [← hde]
      exact hdallow
  refine ⟨?_, ?_, ?_, ?_⟩
  · intro c hc
    have h1 : c ∈ squeezeSpaces base := stripChars_mem _ c hc
    rcases squeezeAux_mem false base c h1 with h | h
    · exact hallow_base c h
    · rw [h]
      exact allowedChar_space wp
  · intro c hc
    exact squeezeAux_space_ascii false base c (stripChars_mem _ c hc)
  · exact stripChars_noTwoSpaces _ (squeezeAux_noTwoSpaces false base)
  · exact stripChars_noEdgeSpace _

/-- Cleaning a list already in normal form returns it unchanged. -/
theorem cleanChars_eq_self (wp : Char → Bool) (l : List Char)
    (h1 : ∀ c ∈ l, allowedChar wp c = true)
    (h2 : ∀ c ∈ l, pyIsSpace c = true → c = ' ')
    (h3 : NoTwoSpaces l) (h4 : NoEdgeSpace l) : cleanChars wp l = l := by
  have hsq : squeezeSpaces l = l := (squeezeAux_eq_self l h2 h3).1
  have hst : stripChars l = l := stripChars_eq_self l h4
  have hfl : l.filter (allowedChar wp) = l := List.filter_eq_self.mpr h1
  have hmp : l.map replaceFullWidthSpace = l := by
    apply map_eq_self_of_mem
    intro c hc
    unfold replaceFullWidthSpace
    by_cases h3000 : c.toNat = 0x3000
    · exfalso
      have hcsp : pyIsSpace c = true := by simp [pyIsSpace, h3000]
      have := h2 c hc hcsp
      rw [this] at h3000
      cases h3000
    · rw [if_neg h3000]
  unfold cleanChars squeezeSpaces
  unfold squeezeSpaces at hsq
  rw [hsq, hst, hfl, hmp, hsq, hst]

/-- Claim C4 — content cleaning is idempotent: for every input string (and
every Unicode word-character table `wp`), applying
`_clean_article_content` to its own output returns that output unchanged. -/
theorem clean_article_content_idempotent (wp : Char → Bool) (content : String) :
    clean_article_content wp (clean_article_content wp content)
      = clean_article_content wp content := by
  unfold clean_article_content
  by_cases hs : content = ""
  · simp [hs]
  · simp only [hs, if_false]
    by_cases ho : (⟨cleanChars wp content.data⟩ : String) = ""
    · rw [if_pos ho, ho]
    · rw [if_neg ho]
      have hdata : (⟨cleanChars wp content.data⟩ : String).data
          = cleanChars wp content.data := rfl
      have hnf := cleanChars_normal_form wp content.data
      have hid := cleanChars_eq_self wp (cleanChars wp content.data)
        hnf.1 hnf.2.1 hnf.2.2.1 hnf.2.2.2
      exact congrArg String.mk hid

theorem splitSentences_ne_nil (l : List Char) : splitSentences l ≠ [] := by
  cases l with
  | nil => simp [splitSentences]
  | cons c cs =>
      unfold splitSentences
      by_cases hc : isSentenceDelim c
      · simp [hc]
      · simp only [hc, Bool.false_eq_true, if_false]
        cases h : splitSentences cs <;> simp

theorem splitSentences_noDelim (l : List Char) :
    ∀ s ∈ splitSentences l, ∀ c ∈ s, isSentenceDelim c = false := by
  induction l with
  | nil =>
      intro s hs c hc
      simp only [splitSentences, List.mem_singleton] at hs
      rw [hs] at hc
      cases hc
  | cons x xs ih =>
      intro s hs c hc
      unfold splitSentences at hs
      by_cases hx : isSentenceDelim x
      · simp only [hx, if_true, List.mem_cons] at hs
        rcases hs with hs | hs
        · rw [hs] at hc; cases hc
        · exact ih s hs c hc
      · simp only [hx, Bool.false_eq_true, if_false] at hs
        cases hsp : splitSentences xs with
        | nil => exact absurd hsp (splitSentences_ne_nil xs)
        | cons t rest =>
            rw [hsp] at hs
            rcases List.mem_cons.mp hs with hs | hs
            · rw [hs] at hc
              rcases List.mem_cons.mp hc with hc | hc
              · rw [hc]; simpa using hx
              · exact ih t (by rw [hsp]; simp) c hc
            · exact ih s (by rw [hsp]; simp [hs]) c hc

/-- Splitting a delimiter-free prefix followed by `。`: the prefix is the
first piece. -/
theorem splitSentences_append_delim (u v : List Char)
    (hu : ∀ c ∈ u, isSentenceDelim c = false) :
    splitSentences (u ++ '。' :: v) = u :: splitSentences v := by
  induction u with
  | nil =>
      simp only [List.nil_append]
      unfold splitSentences
      rw [if_pos (by decide)]
      congr 1
      cases v <;> rfl
  | cons c u' ih =>
      have hc : isSentenceDelim c = false := hu c (by simp)
      simp only [List.cons_append]
      unfold splitSentences
      rw [ih (fun d hd => hu d (by simp [hd]))]
      simp only [hc, Bool.false_eq_true, if_false]
      congr 1
      cases v <;> rfl

theorem sentenceForm_nil_iff (ts : List (List Char)) :
    sentenceForm ts = [] ↔ ts = [] := by
  cases ts with
  | nil => simp [sentenceForm]
  | cons t ts' => simp [sentenceForm]

theorem sentenceForm_cons (t : List Char) (ts : List (List Char)) :
    sentenceForm (t :: ts) = t ++ '。' :: sentenceForm ts := by
  simp [sentenceForm]

theorem sentenceForm_append_singleton (ts : List (List Char)) (s : List Char) :
    sentenceForm (ts ++ [s]) = sentenceForm ts ++ (s ++ ['。']) := by
  simp [sentenceForm]

theorem dropWhile_idem (p : Char → Bool) (l : List Char) :
    (l.dropWhile p).dropWhile p = l.dropWhile p :=
  dropWhile_eq_self_of_head p _ (dropWhile_head_not p l)

theorem trimRightChars_eq_self (l : List Char)
    (h : ∀ c, l.getLast? = some c → pyIsSpace c = false) : trimRightChars l = l := by
  unfold trimRightChars
  rw [dropWhile_eq_self_of_head pyIsSpace l.reverse (by
    intro c hc
    rw [List.head?_reverse] at hc
    exact h c hc), List.reverse_reverse]

/-- Left-trimming first does not change the final strip. -/
theorem stripChars_dropWhile (l : List Char) :
    stripChars (l.dropWhile pyIsSpace) = stripChars l := by
  unfold stripChars trimLeftChars
  rw [dropWhile_idem]

theorem trimLeft_ne_nil_of_strip (l : List Char) (h : stripChars l ≠ []) :
    l.dropWhile pyIsSpace ≠ [] := by
  intro hc
  apply h
  unfold stripChars trimLeftChars
  rw [hc]
  rfl

theorem stripChars_length_le (l : List Char) : (stripChars l).length ≤ l.length := by
  have h1 : (trimRightChars (trimLeftChars l)).length ≤ (trimLeftChars l).length :=
    (trimRightChars_pre _).length_le
  have h2 : (trimLeftChars l).length ≤ l.length := (List.dropWhile_sublist _).length_le
  exact le_trans h1 h2

/-- A non-empty sentence form ends with the delimiter. -/
theorem sentenceForm_getLast (ts : List (List Char)) (h : ts ≠ []) :
    (sentenceForm ts).getLast? = some '。' := by
  induction ts with
  | nil => exact absurd rfl h
  | cons t ts' ih =>
      rw [sentenceForm_cons]
      cases ts' with
      | nil =>
          show (t ++ ['。']).getLast? = some '。'
          exact List.getLast?_concat t
      | cons u us =>
          have hne : sentenceForm (u :: us) ≠ [] := by
            intro hc
            exact absurd ((sentenceForm_nil_iff _).mp hc) (by simp)
          rw [List.getLast?_append_of_ne_nil t (by simp),
            show ('。' :: sentenceForm (u :: us)) = ['。'] ++ sentenceForm (u :: us) from rfl,
            List.getLast?_append_of_ne_nil ['。'] hne]
          exact ih (by simp)

/-- Recovering the sentences of `s₁。s₂。⋯。rest`: the formed sentences come
back (trimmed, blanks dropped) followed by the sentences of `rest`. -/
theorem recover_sentenceForm_append (ts : List (List Char)) (rest : List Char)
    (hnd : ∀ t ∈ ts, ∀ c ∈ t, isSentenceDelim c = false) :
    recoverSentences (sentenceForm ts ++ rest)
      = (ts.map stripChars).filter (fun s => s ≠ []) ++ recoverSentences rest := by
  induction ts with
  | nil => simp [sentenceForm]
  | cons t ts' ih =>
      rw [sentenceForm_cons]
      have hsplit : splitSentences ((t ++ '。' :: sentenceForm ts') ++ rest)
          = t :: splitSentences (sentenceForm ts' ++ rest) := by
        rw [List.append_assoc, List.cons_append]
        exact splitSentences_append_delim t _ (hnd t (by simp))
      unfold recoverSentences at ih ⊢
      rw [hsplit, List.map_cons, List.filter_cons, List.map_cons, List.filter_cons]
      by_cases hts : stripChars t = []
      · simp only [hts]
        rw [ih (fun u hu => hnd u (by simp [hu]))]
        simp
      · have : (decide (stripChars t ≠ [])) = true := by simpa using hts
        rw [this]
        simp only [if_true]
        rw [ih (fun u hu => hnd u (by simp [hu]))]
        simp

/-- Stripping a sentence form only left-trims its first sentence. -/
theorem stripChars_sentenceForm (t : List Char) (ts' : List (List Char))
    (ht : stripChars t ≠ []) :
    stripChars (sentenceForm (t :: ts'))
      = sentenceForm (t.dropWhile pyIsSpace :: ts') := by
  have hdw : t.dropWhile pyIsSpace ≠ [] := trimLeft_ne_nil_of_strip t ht
  have hL : trimLeftChars (sentenceForm (t :: ts'))
      = sentenceForm (t.dropWhile pyIsSpace :: ts') := by
    rw [sentenceForm_cons, sentenceForm_cons]
    unfold trimLeftChars
    rw [List.dropWhile_append]
    simp only [List.isEmpty_iff]
    rw [if_neg hdw]
  unfold stripChars
  rw [hL]
  apply trimRightChars_eq_self
  intro c hc
  rw [sentenceForm_getLast _ (by simp)] at hc
  rw [← Option.some.injEq _ _ |>.mp hc]
  decide

theorem recoverSentences_nil : recoverSentences ([] : List Char) = [] := rfl

/-- The central invariant of the sentence loop: the sentences recovered from
the concatenated chunk contents are the trimmed accumulated sentences
followed by the trimmed non-blank remaining sentences. -/
theorem splitLoop_recover (a : Article) (max_length : Nat) :
    ∀ (ss ts : List (List Char)) (idx : Nat),
      (∀ t ∈ ts, (∀ c ∈ t, isSentenceDelim c = false) ∧ stripChars t ≠ []) →
      (∀ s ∈ ss, ∀ c ∈ s, isSentenceDelim c = false) →
      recoverSentences (contentsOf (splitLoop a max_length ss (sentenceForm ts) idx))
        = ts.map stripChars ++ (ss.map stripChars).filter (fun s => s ≠ []) := by
  intro ss
  induction ss with
  | nil =>
      intro ts idx hts _
      unfold splitLoop
      by_cases h : sentenceForm ts = []
      · rw [if_pos h]
        have hts0 : ts = [] := (sentenceForm_nil_iff ts).mp h
        subst hts0
        simp [contentsOf, recoverSentences_nil]
      · rw [if_neg h]
        have htsne : ts ≠ [] := fun hc => h (by rw [hc]; rfl)
        cases ts with
        | nil => exact absurd rfl htsne
        | cons t ts' =>
            have hfilter : ((t :: ts').map stripChars).filter (fun s => s ≠ [])
                = (t :: ts').map stripChars := by
              apply List.filter_eq_self.mpr
              intro x hx
              rcases List.mem_map.mp hx with ⟨u, hu, rfl⟩
              simpa using (hts u hu).2
            show recoverSentences
                (contentsOf [mkSplitArticle a idx (sentenceForm (t :: ts'))]) = _
            have hc1 : contentsOf [mkSplitArticle a idx (sentenceForm (t :: ts'))]
                = stripChars (sentenceForm (t :: ts')) ++ [] := rfl
            rw [hc1, List.append_nil, stripChars_sentenceForm t ts' (hts t (by simp)).2,
              show sentenceForm (t.dropWhile pyIsSpace :: ts')
                  = sentenceForm (t.dropWhile pyIsSpace :: ts') ++ [] from
                (List.append_nil _).symm,
              recover_sentenceForm_append (t.dropWhile pyIsSpace :: ts') [] ?hnd]
            case hnd =>
              intro u hu c hc
              rcases List.mem_cons.mp hu with hu | hu
              · subst hu
                exact (hts t (by simp)).1 c ((List.dropWhile_sublist _).subset hc)
              · exact (hts u (by simp [hu])).1 c hc
            rw [recoverSentences_nil, List.append_nil,
              List.map_cons, stripChars_dropWhile, ← List.map_cons, hfilter]
            simp
  | cons s rest ih =>
      intro ts idx hts hss
      have hs_nd : ∀ c ∈ s, isSentenceDelim c = false := hss s (by simp)
      have hrest : ∀ u ∈ rest, ∀ c ∈ u, isSentenceDelim c = false :=
        fun u hu => hss u (by simp [hu])
      unfold splitLoop
      by_cases hskip : stripChars s = []
      · rw [if_pos hskip, ih ts idx hts hrest, List.map_cons, List.filter_cons]
        simp [hskip]
      · rw [if_neg hskip]
        by_cases hcond : max_length < (sentenceForm ts ++ s ++ ['。']).length ∧
            sentenceForm ts ≠ []
        · rw [if_pos hcond]
          have htsne : ts ≠ [] := fun hc => hcond.2 (by rw [hc]; rfl)
          cases ts with
          | nil => exact absurd rfl htsne
          | cons t ts' =>
              have hfilter : ((t :: ts').map stripChars).filter (fun s => s ≠ [])
                  = (t :: ts').map stripChars := by
                apply List.filter_eq_self.mpr
                intro x hx
                rcases List.mem_map.mp hx with ⟨u, hu, rfl⟩
                simpa using (hts u hu).2
              have hform : (s ++ ['。']) = sentenceForm [s] := by
                simp [sentenceForm]
              have hc1 : contentsOf (mkSplitArticle a idx (sentenceForm (t :: ts')) ::
                  splitLoop a max_length rest (s ++ ['。']) (idx + 1))
                  = stripChars (sentenceForm (t :: ts'))
                    ++ contentsOf (splitLoop a max_length rest (s ++ ['。']) (idx + 1)) := rfl
              rw [hc1, stripChars_sentenceForm t ts' (hts t (by simp)).2,
                recover_sentenceForm_append (t.dropWhile pyIsSpace :: ts') _ ?hnd2]
              case hnd2 =>
                intro u hu c hc
                rcases List.mem_cons.mp hu with hu | hu
                · subst hu
                  exact (hts t (by simp)).1 c ((List.dropWhile_sublist _).subset hc)
                · exact (hts u (by simp [hu])).1 c hc
              rw [hform, ih [s] (idx + 1) ?hts1 hrest]
              case hts1 =>
                intro u hu
                rw [List.mem_singleton.mp hu]
                exact ⟨hs_nd, hskip⟩
              rw [List.map_cons, stripChars_dropWhile, ← List.map_cons, hfilter]
              simp [List.filter_cons, hskip]
        · rw [if_neg hcond]
          have hacc : sentenceForm ts ++ s ++ ['。'] = sentenceForm (ts ++ [s]) := by
            rw [sentenceForm_append_singleton, List.append_assoc]
          rw [hacc, ih (ts ++ [s]) idx ?hts2 hrest]
          case hts2 =>
            intro u hu
            rcases List.mem_append.mp hu with hu | hu
            · exact hts u hu
            · rw [List.mem_singleton.mp hu]
              exact ⟨hs_nd, hskip⟩
          rw [List.map_append]
          simp [List.filter_cons, hskip]

/-- Splitting preserves sentence content: the sentences recovered from the
concatenated chunk contents are exactly the sentences of the original
content (trimmed, blank sentences dropped, in order). -/
theorem split_long_article_recover (a : Article) (max_length : Nat) :
    recoverSentences (contentsOf (split_long_article a max_length))
      = recoverSentences a.content.data := by
  unfold split_long_article
  by_cases h : a.content.length ≤ max_length
  · rw [if_pos h]
    show recoverSentences (a.content.data ++ []) = _
    rw [List.append_nil]
  · rw [if_neg h]
    have hmain := splitLoop_recover a max_length (splitSentences a.content.data) [] 1
      (by intro t ht; cases ht)
      (splitSentences_noDelim a.content.data)
    exact hmain

/-- Chunk-size invariant of the sentence loop: every produced chunk is
within the limit, or is one original sentence (with its delimiter) kept
whole. -/
theorem splitLoop_length_bound (a : Article) (max_length : Nat)
    (S : List (List Char)) :
    ∀ (ss : List (List Char)) (current : List Char) (idx : Nat),
      (current.length ≤ max_length ∨ ∃ s ∈ S, current = s ++ ['。']) →
      (∀ s ∈ ss, s ∈ S) →
      ∀ c ∈ splitLoop a max_length ss current idx,
        c.content.length ≤ max_length ∨
          ∃ s ∈ S, c.content.data = stripChars (s ++ ['。']) := by
  intro ss
  induction ss with
  | nil =>
      intro current idx hcur _ c hc
      unfold splitLoop at hc
      by_cases h : current = []
      · rw [if_pos h] at hc
        cases hc
      · rw [if_neg h] at hc
        rw [List.mem_singleton.mp hc]
        rcases hcur with hcur | ⟨s, hs, rfl⟩
        · left
          show (stripChars current).length ≤ max_length
          exact le_trans (stripChars_length_le current) hcur
        · right
          exact ⟨s, hs, rfl⟩
  | cons s rest ih =>
      intro current idx hcur hss c hc
      have hrest : ∀ u ∈ rest, u ∈ S := fun u hu => hss u (by simp [hu])
      have hsS : s ∈ S := hss s (by simp)
      unfold splitLoop at hc
      by_cases hskip : stripChars s = []
      · rw [if_pos hskip] at hc
        exact ih current idx hcur hrest c hc
      · rw [if_neg hskip] at hc
        by_cases hcond : max_length < (current ++ s ++ ['。']).length ∧ current ≠ []
        · rw [if_pos hcond] at hc
          rcases List.mem_cons.mp hc with hc | hc
          · rw [hc]
            rcases hcur with hcur | ⟨u, hu, rfl⟩
            · left
              show (stripChars current).length ≤ max_length
              exact le_trans (stripChars_length_le current) hcur
            · right
              exact ⟨u, hu, rfl⟩
          · exact ih (s ++ ['。']) (idx + 1) (Or.inr ⟨s, hsS, rfl⟩) hrest c hc
        · rw [if_neg hcond] at hc
          have hnew : (current ++ s ++ ['。']).length ≤ max_length ∨
              ∃ u ∈ S, current ++ s ++ ['。'] = u ++ ['。'] := by
            by_cases hcl : current = []
            · right
              exact ⟨s, hsS, by rw [hcl]; simp⟩
            · left
              rcases not_and_or.mp hcond with hlen | habs
              · omega
              · exact absurd hcl (by simpa using habs)
          exact ih (current ++ s ++ ['。']) idx hnew hrest c hc

/-- Every chunk of `split_long_article` fits in the limit, except possibly a
chunk carrying a single original sentence kept whole. -/
theorem split_long_article_length_bound (a : Article) (max_length : Nat) :
    ∀ c ∈ split_long_article a max_length,
      c.content.length ≤ max_length ∨
        ∃ s ∈ splitSentences a.content.data,
          c.content.data = stripChars (s ++ ['。']) := by
  intro c hc
  unfold split_long_article at hc
  by_cases h : a.content.length ≤ max_length
  · rw [if_pos h] at hc
    rw [List.mem_singleton.mp hc]
    exact Or.inl h
  · rw [if_neg h] at hc
    exact splitLoop_length_bound a max_length (splitSentences a.content.data)
      (splitSentences a.content.data) [] 1 (Or.inl (by simp))
      (fun s hs => hs) c hc

/-- The chunk numbers produced by the loop are the original number with
consecutive suffixes starting at `idx`. -/
theorem splitLoop_numbers (a : Article) (max_length : Nat) :
    ∀ (ss : List (List Char)) (current : List Char) (idx : Nat),
      ∃ n, (splitLoop a max_length ss current idx).map (fun c => c.article_number)
        = (List.range n).map
            (fun i => a.article_number ++ "-" ++ toString (idx + i)) := by
  intro ss
  induction ss with
  | nil =>
      intro current idx
      unfold splitLoop
      by_cases h : current = []
      · rw [if_pos h]
        exact ⟨0, by simp⟩
      · rw [if_neg h]
        refine ⟨1, ?_⟩
        show [a.article_number ++ "-" ++ toString idx] = _
        rw [show List.range 1 = [0] from rfl]
        simp
  | cons s rest ih =>
      intro current idx
      unfold splitLoop
      by_cases hskip : stripChars s = []
      · rw [if_pos hskip]
        exact ih current idx
      · rw [if_neg hskip]
        by_cases hcond : max_length < (current ++ s ++ ['。']).length ∧ current ≠ []
        · rw [if_pos hcond]
          rcases ih (s ++ ['。']) (idx + 1) with ⟨n, hn⟩
          refine ⟨n + 1, ?_⟩
          rw [List.map_cons, hn, List.range_succ_eq_map, List.map_cons, List.map_map]
          congr 1
          apply List.map_congr_left
          intro i _
          show a.article_number ++ "-" ++ toString (idx + 1 + i)
            = a.article_number ++ "-" ++ toString (idx + (i + 1))
          rw [show idx + 1 + i = idx + (i + 1) from by omega]
        · rw [if_neg hcond]
          exact ih (current ++ s ++ ['。']) idx

/-- Claim C5 counterexample: splitting the sample fragment at max-length 4
yields chunks `"あい。"`, `"うえ。"`; their concatenation `"あい。うえ。"` is
not the original sentence sequence `"あい。 うえ。"` — the leading space of
the sentence `" うえ"` is lost to the chunk-boundary strip, so
concatenating chunk contents does not reproduce the original sentences
verbatim. -/
theorem split_long_article_not_verbatim :
    contentsOf (split_long_article sampleSplitArticle 4) = "あい。うえ。".data ∧
    (((splitSentences sampleSplitArticle.content.data).filter
        (fun s => stripChars s ≠ [])).map (fun s => s ++ ['。'])).flatten
      = "あい。 うえ。".data ∧
    contentsOf (split_long_article sampleSplitArticle 4) ≠
      (((splitSentences sampleSplitArticle.content.data).filter
          (fun s => stripChars s ≠ [])).map (fun s => s ++ ['。'])).flatten := by
  decide

/-- Claim C5 (amended). For every fragment and positive max-length:
a fragment within the limit is returned unchanged as a one-element list;
every chunk's content is within the limit except possibly a chunk carrying
one original sentence kept whole; concatenating the chunk contents in order
reproduces the original sentences in order up to whitespace trimmed at chunk
boundaries (the trimmed non-blank sentence sequences coincide); and in the
split case the chunk numbers are the original fragment number with
sequential suffixes "-1", "-2", …. -/
theorem split_long_article_spec (a : Article) (max_length : Nat)
    (hpos : 0 < max_length) :
    (a.content.length ≤ max_length → split_long_article a max_length = [a]) ∧
    (∀ c ∈ split_long_article a max_length,
      c.content.length ≤ max_length ∨
        ∃ s ∈ splitSentences a.content.data,
          c.content.data = stripChars (s ++ ['。'])) ∧
    recoverSentences (contentsOf (split_long_article a max_length))
      = recoverSentences a.content.data ∧
    (max_length < a.content.length →
      ∃ n, (split_long_article a max_length).map (fun c => c.article_number)
        = (List.range n).map
            (fun i => a.article_number ++ "-" ++ toString (i + 1))) := by
  refine ⟨?_, split_long_article_length_bound a max_length,
    split_long_article_recover a max_length, ?_⟩
  · intro h
    unfold split_long_article
    rw [if_pos h]
  · intro h
    unfold split_long_article
    rw [if_neg (by omega)]
    rcases splitLoop_numbers a max_length (splitSentences a.content.data) [] 1 with ⟨n, hn⟩
    refine ⟨n, ?_⟩
    rw [hn]
    apply List.map_congr_left
    intro i _
    rw [show 1 + i = i + 1 from by omega]

/-- Claim C5 witness: the amended splitting theorem applied to the sample
fragment at max-length 4. -/
theorem split_long_article_spec_witness :
    0 < 4 ∧
    ((sampleSplitArticle.content.length ≤ 4 →
        split_long_article sampleSplitArticle 4 = [sampleSplitArticle]) ∧
      (∀ c ∈ split_long_article sampleSplitArticle 4,
        c.content.length ≤ 4 ∨
          ∃ s ∈ splitSentences sampleSplitArticle.content.data,
            c.content.data = stripChars (s ++ ['。'])) ∧
      recoverSentences (contentsOf (split_long_article sampleSplitArticle 4))
        = recoverSentences sampleSplitArticle.content.data ∧
      (4 < sampleSplitArticle.content.length →
        ∃ n, (split_long_article sampleSplitArticle 4).map (fun c => c.article_number)
          = (List.range n).map
              (fun i => sampleSplitArticle.article_number ++ "-" ++ toString (i + 1)))) :=
  ⟨by decide, split_long_article_spec sampleSplitArticle 4 (by decide)⟩

/-- Claim C10 — the fallback to `Item` elements is keyed on zero *accepted*
fragments: whenever every `Article` descendant is dropped by parsing (for a
missing number or empty content) — including when `Article` elements are
present — extraction returns the parsed `Item` descendants instead. -/
theorem extract_articles_fallback (root : XElem) (law_id : String)
    (h : ∀ e ∈ findAll root "Article", _parse_article_element e law_id = none) :
    _extract_articles root law_id
      = (findAll root "Item").filterMap (fun e => _parse_item_element e law_id) := by
  unfold _extract_articles
  have hnil : (findAll root "Article").filterMap
      (fun e => _parse_article_element e law_id) = [] := by
    rw [List.filterMap_eq_nil_iff]
    exact h
  rw [hnil]
  rfl

/-- Claim C10 witness: the sample document has an `Article` element, every
`Article` is dropped, and extraction returns the parsed `Item` — the
fallback fires on zero accepted fragments, not zero `Article` elements. -/
theorem extract_articles_fallback_witness :
    findAll sampleFallbackRoot "Article" = [sampleBareArticle] ∧
    (∀ e ∈ findAll sampleFallbackRoot "Article",
      _parse_article_element e "LAW" = none) ∧
    _extract_articles sampleFallbackRoot "LAW"
      = (findAll sampleFallbackRoot "Item").filterMap
          (fun e => _parse_item_element e "LAW") ∧
    (findAll sampleFallbackRoot "Item").filterMap (fun e => _parse_item_element e "LAW")
      = [{ law_id := "LAW", article_number := "1", content := "第一号の内容" }] := by
  have hdrop : ∀ e ∈ findAll sampleFallbackRoot "Article",
      _parse_article_element e "LAW" = none := by
    intro e he
    rw [show findAll sampleFallbackRoot "Article" = [sampleBareArticle] from rfl] at he
    rw [List.mem_singleton.mp he]
    rfl
  exact ⟨rfl, hdrop, extract_articles_fallback sampleFallbackRoot "LAW" hdrop, rfl⟩

/-- Claim C9 (amended) — Scenario 1 and category inference. A document
whose `Article` descendants are exactly two well-formed ones (numbers
`第1条`, `第2条` from the `ArticleNum` children, captions with non-empty
cleaned text) extracts to exactly 2 fragments carrying those numbers and
captions. For every extracted document whose auxiliary info extractions do
not abort (no `LawTitleKana`/`LawNum`/`PromulgateDate`/`EffectiveDate`
element is present with missing text), the category is inferred from
substring tests against the title in the fixed priority order
税 → 民法 → 刑法 → 商法 → 労働, first match winning, with default その他 —
in particular a title containing 税 yields category 税法; when such an
extraction aborts, the category is left unset instead. -/
theorem extraction_scenario1_and_category :
    (∀ (root : XElem) (law_id : String) (a1 a2 : XElem) (t1 t2 : String),
      findAll root "Article" = [a1, a2] →
      (findChild a1 "ArticleNum").bind truthyText = some "第1条" →
      (findChild a2 "ArticleNum").bind truthyText = some "第2条" →
      (findChild a1 "ArticleCaption").bind truthyText = some t1 →
      (findChild a2 "ArticleCaption").bind truthyText = some t2 →
      clean_text t1 ≠ "" → clean_text t2 ≠ "" →
      ∃ f1 f2, _extract_articles root law_id = [f1, f2] ∧
        f1.article_number = "第1条" ∧ f2.article_number = "第2条" ∧
        f1.content = clean_text t1 ∧ f2.content = clean_text t2) ∧
    (∀ root e t, findDesc root "LawTitle" = some e → e.text = some t →
      infoAborts root = false →
      strContains (pyStripString t) "税" = true →
      (_extract_law_info root).category = some "税法") ∧
    (∀ root, infoAborts root = true → (_extract_law_info root).category = none) ∧
    (∀ name, strContains name "税" = true → inferCategory name = "税法") ∧
    (∀ name, strContains name "税" = false → strContains name "民法" = true →
      inferCategory name = "民法") ∧
    (∀ name, strContains name "税" = false → strContains name "民法" = false →
      strContains name "刑法" = true → inferCategory name = "刑法") ∧
    (∀ name, strContains name "税" = false → strContains name "民法" = false →
      strContains name "刑法" = false → strContains name "商法" = true →
      inferCategory name = "商法") ∧
    (∀ name, strContains name "税" = false → strContains name "民法" = false →
      strContains name "刑法" = false → strContains name "商法" = false →
      strContains name "労働" = true → inferCategory name = "労働法") ∧
    (∀ name, strContains name "税" = false → strContains name "民法" = false →
      strContains name "刑法" = false → strContains name "商法" = false →
      strContains name "労働" = false → inferCategory name = "その他") := by
  refine ⟨?_, ?_, ?_, ?_, ?_, ?_, ?_, ?_, ?_⟩
  · intro root law_id a1 a2 t1 t2 hfa hn1 hn2 hc1 hc2 hne1 hne2
    have hnum1 : _extract_article_number a1 = some "第1条" := by
      unfold _extract_article_number
      rw [hn1]
      simp [show pyStripString "第1条" = "第1条" from by decide]
    have hnum2 : _extract_article_number a2 = some "第2条" := by
      unfold _extract_article_number
      rw [hn2]
      simp [show pyStripString "第2条" = "第2条" from by decide]
    have hcont1 : _extract_article_content a1 = some (clean_text t1) := by
      unfold _extract_article_content
      rw [hc1]
    have hcont2 : _extract_article_content a2 = some (clean_text t2) := by
      unfold _extract_article_content
      rw [hc2]
    have hp1 : _parse_article_element a1 law_id
        = some { law_id := law_id, article_number := "第1条", content := clean_text t1 } := by
      unfold _parse_article_element
      rw [hnum1, hcont1]
      simp [show ("第1条" : String) ≠ "" from by decide, hne1]
    have hp2 : _parse_article_element a2 law_id
        = some { law_id := law_id, article_number := "第2条", content := clean_text t2 } := by
      unfold _parse_article_element
      rw [hnum2, hcont2]
      simp [show ("第2条" : String) ≠ "" from by decide, hne2]
    refine ⟨{ law_id := law_id, article_number := "第1条", content := clean_text t1 },
      { law_id := law_id, article_number := "第2条", content := clean_text t2 },
      ?_, rfl, rfl, rfl, rfl⟩
    unfold _extract_articles
    rw [hfa]
    simp [List.filterMap_cons, hp1, hp2]
  · intro root e t hfind htext habort hz
    unfold _extract_law_info
    rw [hfind]
    simp only [htext, habort, Bool.false_eq_true, if_false]
    show some (inferCategory (pyStripString t)) = some "税法"
    unfold inferCategory
    rw [if_pos hz]
  · intro root habort
    unfold _extract_law_info
    cases hfd : findDesc root "LawTitle" with
    | none => simp [habort]
    | some e =>
        cases hte : e.text with
        | none => simp [hte]
        | some t => simp [hte, habort]
  · intro name h
    unfold inferCategory
    rw [if_pos h]
  · intro name h1 h2
    unfold inferCategory
    rw [if_neg (by simp [h1]), if_pos h2]
  · intro name h1 h2 h3
    unfold inferCategory
    rw [if_neg (by simp [h1]), if_neg (by simp [h2]), if_pos h3]
  · intro name h1 h2 h3 h4
    unfold inferCategory
    rw [if_neg (by simp [h1]), if_neg (by simp [h2]), if_neg (by simp [h3]), if_pos h4]
  · intro name h1 h2 h3 h4 h5
    unfold inferCategory
    rw [if_neg (by simp [h1]), if_neg (by simp [h2]), if_neg (by simp [h3]),
      if_neg (by simp [h4]), if_pos h5]
  · intro name h1 h2 h3 h4 h5
    unfold inferCategory
    rw [if_neg (by simp [h1]), if_neg (by simp [h2]), if_neg (by simp [h3]),
      if_neg (by simp [h4]), if_neg (by simp [h5])]

/-- Claim C9 witness: the sample statute (whose info extractions do not
abort) extracts to exactly two fragments numbered 第1条 and 第2条, and its
税-containing title yields category 税法. -/
theorem extraction_scenario1_witness :
    (∃ f1 f2, _extract_articles sampleLawRoot "M32HO089" = [f1, f2] ∧
      f1.article_number = "第1条" ∧ f2.article_number = "第2条" ∧
      f1.content = clean_text "（納税義務者）" ∧
      f2.content = clean_text "（課税所得の範囲）") ∧
    infoAborts sampleLawRoot = false ∧
    (_extract_law_info sampleLawRoot).category = some "税法" :=
  ⟨extraction_scenario1_and_category.1 sampleLawRoot "M32HO089" sampleArticle1
      sampleArticle2 "（納税義務者）" "（課税所得の範囲）" rfl rfl rfl rfl rfl
      (by decide) (by decide),
    rfl,
    extraction_scenario1_and_category.2.1 sampleLawRoot sampleTitleElem "所得税法"
      rfl rfl rfl (by decide)⟩

/-- Claim C9 counterexample: a document whose title 所得税法 contains 税
but which carries an empty `LawTitleKana` element. The kana extraction's
`elem.text.strip()` raises `AttributeError`, the enclosing handler returns
the info dict before the category assignment runs, and the extracted
category is `None` — not 税法, so the category is not inferred from the
title for every extracted document. -/
theorem extraction_category_abort_counterexample :
    strContains "所得税法" "税" = true ∧
    (_extract_law_info sampleKanaCrashRoot).law_name = some "所得税法" ∧
    (_extract_law_info sampleKanaCrashRoot).category = none ∧
    (_extract_law_info sampleKanaCrashRoot).category ≠ some "税法" :=
  ⟨by decide, rfl, rfl, by decide⟩

end LawSearch
